import Mathlib

/-!
Verification of the day 12 solution (`day12/day12.py`): flood-fill region
discovery over a character grid, perimeter and side counting, and the
two-part aggregate output.

Coordinates are pairs of integers (Python `int`), regions are finite sets of
coordinates (Python `set`), and the grid is a list of rows of characters.
-/

/-- A grid coordinate `(r, c)`: a pair of Python ints. -/
abbrev Cell := ℤ × ℤ

/-- The neighbour offsets `((-1, 0), (1, 0), (0, -1), (0, 1))` used by the
script in `perimeter_day12` and in the BFS loop, in source order. -/
def dirs : List (ℤ × ℤ) := [(-1, 0), (1, 0), (0, -1), (0, 1)]

/-- `num_neighbors` inside `perimeter_day12`: the length of the list of
offsets whose translate of `p` lies in `region`. -/
def numNeighbors (region : Finset Cell) (p : Cell) : ℕ :=
  (dirs.filter (fun d => decide ((p.1 + d.1, p.2 + d.2) ∈ region))).length

/-- `perimeter_day12(region)`: sums `4 - num_neighbors` over the cells of the
region (Python int arithmetic, hence `ℤ`). -/
def perimeter_day12 (region : Finset Cell) : ℤ :=
  Finset.sum region (fun p => 4 - (numNeighbors region p : ℤ))

/-- The `up` set of `sides_day12`: cells of the region whose upper neighbour
is not in the region. -/
def upSet (region : Finset Cell) : Finset Cell :=
  region.filter (fun p => (p.1 - 1, p.2) ∉ region)

/-- The `down` set of `sides_day12`. -/
def downSet (region : Finset Cell) : Finset Cell :=
  region.filter (fun p => (p.1 + 1, p.2) ∉ region)

/-- The `left` set of `sides_day12`. -/
def leftSet (region : Finset Cell) : Finset Cell :=
  region.filter (fun p => (p.1, p.2 - 1) ∉ region)

/-- The `right` set of `sides_day12`. -/
def rightSet (region : Finset Cell) : Finset Cell :=
  region.filter (fun p => (p.1, p.2 + 1) ∉ region)

/-- Contribution of one cell of `up` to `count` in `sides_day12`
(the four `if`s of the first loop). -/
def upContrib (region : Finset Cell) (p : Cell) : ℤ :=
  (if p ∈ leftSet region then 1 else 0) +
  (if p ∈ rightSet region then 1 else 0) +
  (if (p.1 - 1, p.2 - 1) ∈ rightSet region ∧ p ∉ leftSet region then 1 else 0) +
  (if (p.1 - 1, p.2 + 1) ∈ leftSet region ∧ p ∉ rightSet region then 1 else 0)

/-- Contribution of one cell of `down` to `count` in `sides_day12`
(the four `if`s of the second loop). -/
def downContrib (region : Finset Cell) (p : Cell) : ℤ :=
  (if p ∈ leftSet region then 1 else 0) +
  (if p ∈ rightSet region then 1 else 0) +
  (if (p.1 + 1, p.2 - 1) ∈ rightSet region ∧ p ∉ leftSet region then 1 else 0) +
  (if (p.1 + 1, p.2 + 1) ∈ leftSet region ∧ p ∉ rightSet region then 1 else 0)

/-- `sides_day12(region)`: the corner count accumulated over the `up` and
`down` sets. -/
def sides_day12 (region : Finset Cell) : ℤ :=
  Finset.sum (upSet region) (upContrib region) +
  Finset.sum (downSet region) (downContrib region)

/-- `num_rows = len(grid)`. -/
def numRows (g : List (List Char)) : ℕ := g.length

/-- `num_cols = len(grid[0])` (0 for the empty grid; the empty case raises in
Python and is modelled separately in `runProgram`). -/
def numCols (g : List (List Char)) : ℕ := (g.headD []).length

/-- `grid[r][c]` for an in-bounds coordinate (the default values are never
read at in-bounds coordinates of rows of full length). -/
def valAt (g : List (List Char)) (p : Cell) : Char :=
  (g.getD p.1.toNat []).getD p.2.toNat ' '

/-- The bounds test `0 <= nr < num_rows and 0 <= nc < num_cols` of the BFS. -/
def inBounds (g : List (List Char)) (p : Cell) : Prop :=
  0 ≤ p.1 ∧ p.1 < (numRows g : ℤ) ∧ 0 ≤ p.2 ∧ p.2 < (numCols g : ℤ)

instance (g : List (List Char)) (p : Cell) : Decidable (inBounds g p) := by
  unfold inBounds
  infer_instance

/-- The set of all in-bounds coordinates of the grid. -/
def cells (g : List (List Char)) : Finset Cell :=
  ((Finset.range (numRows g)) ×ˢ (Finset.range (numCols g))).image
    (fun rc => ((rc.1 : ℤ), (rc.2 : ℤ)))

/-- The inner `for dr, dc in ...` loop of the BFS: walk the offsets of `ds`,
enqueueing each translate of `p` that is unseen, in bounds and has the same
grid value, marking it seen at enqueue time.  Returns the updated seen set
and the enqueued cells in order. -/
def enqueueNbrs (g : List (List Char)) (p : Cell) :
    List (ℤ × ℤ) → Finset Cell → List Cell → Finset Cell × List Cell
  | [], seen, acc => (seen, acc)
  | d :: ds, seen, acc =>
    let w : Cell := (p.1 + d.1, p.2 + d.2)
    if w ∉ seen ∧ inBounds g w ∧ valAt g w = valAt g p then
      enqueueNbrs g p ds (insert w seen) (acc ++ [w])
    else
      enqueueNbrs g p ds seen acc

/-- The `while queue:` loop of the BFS, with explicit fuel (the loop always
terminates; `bfs_total` below shows the fuel used by `scanStep` suffices).
Returns the grown region, the final seen set, and the trace of all cells
enqueued by the neighbour loop, in order of enqueueing. -/
def bfs (g : List (List Char)) :
    ℕ → Finset Cell → List Cell → Finset Cell →
    Option (Finset Cell × Finset Cell × List Cell)
  | 0, seen, [], region => some (region, seen, [])
  | 0, _, _ :: _, _ => none
  | _ + 1, seen, [], region => some (region, seen, [])
  | fuel + 1, seen, p :: rest, region =>
    let en := enqueueNbrs g p dirs seen []
    match bfs g fuel en.1 (rest ++ en.2) (insert p region) with
    | some out => some (out.1, out.2.1, en.2 ++ out.2.2)
    | none => none

/-- One iteration of the outer `for r ... for c ...` scan: skip a seen seed,
otherwise run the BFS from it and append the produced region.  The state is
`(regions, seen, trace)` where `trace` records every cell ever added to a
BFS queue (the seed first, then the neighbour enqueues). -/
def scanStep (g : List (List Char))
    (st : List (Finset Cell) × Finset Cell × List Cell) (s : Cell) :
    List (Finset Cell) × Finset Cell × List Cell :=
  if s ∈ st.2.1 then st
  else
    match bfs g (2 * (cells g).card + 1) st.2.1 [s] ∅ with
    | some out => (st.1 ++ [out.1], out.2.1, st.2.2 ++ s :: out.2.2)
    | none => st

/-- The row-major seed order of the outer scan. -/
def scanList (g : List (List Char)) : List Cell :=
  (List.range (numRows g)).flatMap
    (fun r => (List.range (numCols g)).map (fun (c : ℕ) => ((r : ℤ), (c : ℤ))))

/-- The full region-discovery scan, seeded in the order given by `order`. -/
def findRegionsOrder (g : List (List Char)) (order : List Cell) :
    List (Finset Cell) × Finset Cell × List Cell :=
  order.foldl (scanStep g) ([], ∅, [])

/-- `regions`: the list of regions produced by the row-major scan. -/
def findRegions (g : List (List Char)) : List (Finset Cell) :=
  (findRegionsOrder g (scanList g)).1

/-- The trace of every enqueue performed over the whole row-major run. -/
def allEnqueues (g : List (List Char)) : List Cell :=
  (findRegionsOrder g (scanList g)).2.2

/-- `part1 = sum(len(r) * perimeter_day12(r) for r in regions)`. -/
def part1 (g : List (List Char)) : ℤ :=
  ((findRegions g).map (fun r => (r.card : ℤ) * perimeter_day12 r)).sum

/-- `part2 = sum(len(r) * sides_day12(r) for r in regions)`. -/
def part2 (g : List (List Char)) : ℤ :=
  ((findRegions g).map (fun r => (r.card : ℤ) * sides_day12 r)).sum

/-- The runtime errors the script can raise while loading and scanning:
`IndexError` from `grid[0]` on empty input or from `grid[r][c]` on a row
shorter than `num_cols`.  `MalformedInputError` is the error class the
specification prescribes; it appears nowhere in the code and is included
here only so that the specification's claim about it can be stated. -/
inductive PyErr
  | indexError
  | malformedInput
deriving DecidableEq

/-- `str.strip`: drop whitespace at both ends of a line. -/
def stripChars (l : List Char) : List Char :=
  ((l.dropWhile Char.isWhitespace).reverse.dropWhile Char.isWhitespace).reverse

/-- The whole script: strip the input lines, take `num_cols` from the first
row (`grid[0]` raises `IndexError` on empty input), and print the two
answer lines.  The scan dereferences `grid[r][c]` for every in-bounds cell
(every cell is either seeded and popped, or enqueued after a bounds check),
so it raises `IndexError` exactly when some row is shorter than `num_cols`;
rows longer than the first are silently read only up to `num_cols`. -/
def runProgram (input : List String) : Except PyErr (List String) :=
  let grid := input.map (fun s => stripChars s.data)
  match grid with
  | [] => Except.error PyErr.indexError
  | g0 :: _ =>
    if grid.any (fun row => row.length < g0.length) then
      Except.error PyErr.indexError
    else
      Except.ok
        ["The Day12 Puzzle input # Part 1: " ++ toString (part1 grid),
         "The Day12 Puzzle input # Part 2: " ++ toString (part2 grid)]

/-- The sample grid of the specification's concrete scenario. -/
def sampleGrid : List (List Char) :=
  [['A', 'A', 'A', 'A'],
   ['B', 'B', 'C', 'D'],
   ['B', 'B', 'C', 'C'],
   ['E', 'E', 'E', 'C']]

theorem sample_regions_eval :
    findRegions sampleGrid =
      [{(0, 0), (0, 1), (0, 2), (0, 3)},
       {(1, 0), (1, 1), (2, 0), (2, 1)},
       {(1, 2), (2, 2), (2, 3), (3, 3)},
       {(1, 3)},
       {(3, 0), (3, 1), (3, 2)}] := by
  decide

theorem sample_part1_eval : part1 sampleGrid = 140 := by
  decide

/-! ### Perimeter decomposition -/

/-- The neighbour count of a cell, written out over the four offsets. -/
theorem numNeighbors_eq (R : Finset Cell) (p : Cell) :
    (numNeighbors R p : ℤ) =
      (if (p.1 - 1, p.2) ∈ R then 1 else 0) +
      (if (p.1 + 1, p.2) ∈ R then 1 else 0) +
      (if (p.1, p.2 - 1) ∈ R then 1 else 0) +
      (if (p.1, p.2 + 1) ∈ R then 1 else 0) := by
  rw [show ((p.1 - 1 : ℤ), p.2) = (p.1 + -1, p.2) from by rw [sub_eq_add_neg],
    show ((p.1 : ℤ), p.2 - 1) = (p.1, p.2 + -1) from by rw [sub_eq_add_neg]]
  by_cases h1 : (p.1 + -1, p.2) ∈ R <;> by_cases h2 : (p.1 + 1, p.2) ∈ R <;>
    by_cases h3 : (p.1, p.2 + -1) ∈ R <;> by_cases h4 : (p.1, p.2 + 1) ∈ R <;>
    simp [numNeighbors, dirs, List.filter, h1, h2, h3, h4]

/-- The perimeter is the total number of exposed cell sides: the sizes of
the four exposed-side sets also used by `sides_day12`. -/
theorem perimeter_eq_sets (R : Finset Cell) :
    perimeter_day12 R =
      ((upSet R).card : ℤ) + ((downSet R).card : ℤ) +
      ((leftSet R).card : ℤ) + ((rightSet R).card : ℤ) := by
  classical
  have key : ∀ p ∈ R, 4 - (numNeighbors R p : ℤ) =
      ((if (p.1 - 1, p.2) ∉ R then (1 : ℤ) else 0) +
       (if (p.1 + 1, p.2) ∉ R then (1 : ℤ) else 0)) +
      ((if (p.1, p.2 - 1) ∉ R then (1 : ℤ) else 0) +
       (if (p.1, p.2 + 1) ∉ R then (1 : ℤ) else 0)) := by
    intro p _
    rw [numNeighbors_eq]
    by_cases h1 : (p.1 - 1, p.2) ∈ R <;> by_cases h2 : (p.1 + 1, p.2) ∈ R <;>
      by_cases h3 : (p.1, p.2 - 1) ∈ R <;> by_cases h4 : (p.1, p.2 + 1) ∈ R <;>
      simp [h1, h2, h3, h4]
  rw [perimeter_day12, Finset.sum_congr rfl key, Finset.sum_add_distrib,
    Finset.sum_add_distrib, Finset.sum_add_distrib]
  simp only [Finset.sum_boole]
  rw [upSet, downSet, leftSet, rightSet]
  ring

/-- Cells with an in-region neighbour below biject (by shifting down) with
cells with an in-region neighbour above. -/
theorem card_downAdj_eq_upAdj (R : Finset Cell) :
    (R.filter (fun p => (p.1 + 1, p.2) ∈ R)).card =
      (R.filter (fun p => (p.1 - 1, p.2) ∈ R)).card := by
  classical
  refine Finset.card_bij (fun p _ => ((p.1 + 1, p.2) : Cell)) ?_ ?_ ?_
  · rintro ⟨a, b⟩ ha
    obtain ⟨haR, haN⟩ := Finset.mem_filter.mp ha
    refine Finset.mem_filter.mpr ⟨haN, ?_⟩
    simpa using haR
  · rintro ⟨a, b⟩ ha ⟨c, d⟩ hc h
    simp only [Prod.mk.injEq] at h ⊢
    omega
  · rintro ⟨a, b⟩ hb
    obtain ⟨hbR, hbN⟩ := Finset.mem_filter.mp hb
    refine ⟨(a - 1, b), Finset.mem_filter.mpr ⟨hbN, ?_⟩, ?_⟩ <;> simp [hbR]

/-- Cells with an in-region neighbour to the right biject with cells with an
in-region neighbour to the left. -/
theorem card_rightAdj_eq_leftAdj (R : Finset Cell) :
    (R.filter (fun p => (p.1, p.2 + 1) ∈ R)).card =
      (R.filter (fun p => (p.1, p.2 - 1) ∈ R)).card := by
  classical
  refine Finset.card_bij (fun p _ => ((p.1, p.2 + 1) : Cell)) ?_ ?_ ?_
  · rintro ⟨a, b⟩ ha
    obtain ⟨haR, haN⟩ := Finset.mem_filter.mp ha
    refine Finset.mem_filter.mpr ⟨haN, ?_⟩
    simpa using haR
  · rintro ⟨a, b⟩ ha ⟨c, d⟩ hc h
    simp only [Prod.mk.injEq] at h ⊢
    omega
  · rintro ⟨a, b⟩ hb
    obtain ⟨hbR, hbN⟩ := Finset.mem_filter.mp hb
    refine ⟨(a, b - 1), Finset.mem_filter.mpr ⟨hbN, ?_⟩, ?_⟩ <;> simp [hbR]

/-- The number of unordered 4-adjacent pairs inside a region, each pair
counted once via its upper (respectively left) member. -/
def adjPairs (R : Finset Cell) : ℕ :=
  (R.filter (fun p => (p.1 + 1, p.2) ∈ R)).card +
    (R.filter (fun p => (p.1, p.2 + 1) ∈ R)).card

/-- Complementary counts: exposed plus adjacent below equals the size. -/
theorem card_up_split (R : Finset Cell) :
    (upSet R).card + (R.filter (fun p => (p.1 - 1, p.2) ∈ R)).card = R.card := by
  classical
  rw [upSet, add_comm]
  exact Finset.filter_card_add_filter_neg_card_eq_card (fun q : Cell => (q.1 - 1, q.2) ∈ R)

theorem card_down_split (R : Finset Cell) :
    (downSet R).card + (R.filter (fun p => (p.1 + 1, p.2) ∈ R)).card = R.card := by
  classical
  rw [downSet, add_comm]
  exact Finset.filter_card_add_filter_neg_card_eq_card (fun q : Cell => (q.1 + 1, q.2) ∈ R)

theorem card_left_split (R : Finset Cell) :
    (leftSet R).card + (R.filter (fun p => (p.1, p.2 - 1) ∈ R)).card = R.card := by
  classical
  rw [leftSet, add_comm]
  exact Finset.filter_card_add_filter_neg_card_eq_card (fun q : Cell => (q.1, q.2 - 1) ∈ R)

theorem card_right_split (R : Finset Cell) :
    (rightSet R).card + (R.filter (fun p => (p.1, p.2 + 1) ∈ R)).card = R.card := by
  classical
  rw [rightSet, add_comm]
  exact Finset.filter_card_add_filter_neg_card_eq_card (fun q : Cell => (q.1, q.2 + 1) ∈ R)

/-- C10: `perimeter_day12` equals `4n - 2A` for a region of `n` cells with
`A` internal 4-adjacent pairs; in particular it is even. -/
theorem c10_perimeter_even (R : Finset Cell) :
    perimeter_day12 R = 4 * (R.card : ℤ) - 2 * (adjPairs R : ℤ) ∧
      Even (perimeter_day12 R) := by
  have hs := perimeter_eq_sets R
  have h1 := card_up_split R
  have h2 := card_down_split R
  have h3 := card_left_split R
  have h4 := card_right_split R
  have h5 := card_downAdj_eq_upAdj R
  have h6 := card_rightAdj_eq_leftAdj R
  have hmain : perimeter_day12 R = 4 * (R.card : ℤ) - 2 * (adjPairs R : ℤ) := by
    rw [adjPairs]
    push_cast
    omega
  refine ⟨hmain, ⟨2 * (R.card : ℤ) - (adjPairs R : ℤ), by omega⟩⟩

/-! ### Extremal exposed cells -/

/-- Every inhabited row has a rightmost cell, whose right side is exposed. -/
theorem exists_row_right (R : Finset Cell) (r : ℤ) (hr : r ∈ R.image Prod.fst) :
    ∃ c : ℤ, (r, c) ∈ R ∧ (r, c + 1) ∉ R := by
  classical
  have hne : (R.filter (fun q : Cell => q.1 = r)).Nonempty := by
    obtain ⟨p, hp, hpr⟩ := Finset.mem_image.mp hr
    exact ⟨p, Finset.mem_filter.mpr ⟨hp, hpr⟩⟩
  obtain ⟨b, hb, hmax⟩ :=
    Finset.exists_max_image (R.filter (fun q : Cell => q.1 = r)) Prod.snd hne
  obtain ⟨hbR, hbr⟩ := Finset.mem_filter.mp hb
  refine ⟨b.2, ?_, ?_⟩
  · have hbe : ((r, b.2) : Cell) = b := Prod.ext hbr.symm rfl
    rw [hbe]; exact hbR
  · intro hmem
    have h2 : ((r, b.2 + 1) : Cell) ∈ R.filter (fun q : Cell => q.1 = r) :=
      Finset.mem_filter.mpr ⟨hmem, rfl⟩
    have h3 : b.2 + 1 ≤ b.2 := hmax _ h2
    omega

/-- Every inhabited row has a leftmost cell, whose left side is exposed. -/
theorem exists_row_left (R : Finset Cell) (r : ℤ) (hr : r ∈ R.image Prod.fst) :
    ∃ c : ℤ, (r, c) ∈ R ∧ (r, c - 1) ∉ R := by
  classical
  have hne : (R.filter (fun q : Cell => q.1 = r)).Nonempty := by
    obtain ⟨p, hp, hpr⟩ := Finset.mem_image.mp hr
    exact ⟨p, Finset.mem_filter.mpr ⟨hp, hpr⟩⟩
  obtain ⟨b, hb, hmin⟩ :=
    Finset.exists_min_image (R.filter (fun q : Cell => q.1 = r)) Prod.snd hne
  obtain ⟨hbR, hbr⟩ := Finset.mem_filter.mp hb
  refine ⟨b.2, ?_, ?_⟩
  · have hbe : ((r, b.2) : Cell) = b := Prod.ext hbr.symm rfl
    rw [hbe]; exact hbR
  · intro hmem
    have h2 : ((r, b.2 - 1) : Cell) ∈ R.filter (fun q : Cell => q.1 = r) :=
      Finset.mem_filter.mpr ⟨hmem, rfl⟩
    have h3 : b.2 ≤ b.2 - 1 := hmin _ h2
    omega

/-- Every inhabited column has a topmost cell, whose upper side is exposed. -/
theorem exists_col_up (R : Finset Cell) (c : ℤ) (hc : c ∈ R.image Prod.snd) :
    ∃ r : ℤ, (r, c) ∈ R ∧ (r - 1, c) ∉ R := by
  classical
  have hne : (R.filter (fun q : Cell => q.2 = c)).Nonempty := by
    obtain ⟨p, hp, hpc⟩ := Finset.mem_image.mp hc
    exact ⟨p, Finset.mem_filter.mpr ⟨hp, hpc⟩⟩
  obtain ⟨b, hb, hmin⟩ :=
    Finset.exists_min_image (R.filter (fun q : Cell => q.2 = c)) Prod.fst hne
  obtain ⟨hbR, hbc⟩ := Finset.mem_filter.mp hb
  refine ⟨b.1, ?_, ?_⟩
  · have hbe : ((b.1, c) : Cell) = b := Prod.ext rfl hbc.symm
    rw [hbe]; exact hbR
  · intro hmem
    have h2 : ((b.1 - 1, c) : Cell) ∈ R.filter (fun q : Cell => q.2 = c) :=
      Finset.mem_filter.mpr ⟨hmem, rfl⟩
    have h3 : b.1 ≤ b.1 - 1 := hmin _ h2
    omega

/-- A nonempty region has a top-left corner cell, exposed above and to the
left. -/
theorem corner_up_left (R : Finset Cell) (hne : R.Nonempty) :
    ∃ p : Cell, p ∈ upSet R ∧ p ∈ leftSet R := by
  classical
  obtain ⟨m, hm, hmin⟩ := Finset.exists_min_image R Prod.fst hne
  obtain ⟨c, hc, hcl⟩ := exists_row_left R m.1 (Finset.mem_image_of_mem _ hm)
  refine ⟨(m.1, c), Finset.mem_filter.mpr ⟨hc, ?_⟩, Finset.mem_filter.mpr ⟨hc, hcl⟩⟩
  intro hmem
  have h3 : m.1 ≤ m.1 - 1 := hmin _ hmem
  omega

/-- A nonempty region has a top-right corner cell, exposed above and to the
right. -/
theorem corner_up_right (R : Finset Cell) (hne : R.Nonempty) :
    ∃ p : Cell, p ∈ upSet R ∧ p ∈ rightSet R := by
  classical
  obtain ⟨m, hm, hmin⟩ := Finset.exists_min_image R Prod.fst hne
  obtain ⟨c, hc, hcr⟩ := exists_row_right R m.1 (Finset.mem_image_of_mem _ hm)
  refine ⟨(m.1, c), Finset.mem_filter.mpr ⟨hc, ?_⟩, Finset.mem_filter.mpr ⟨hc, hcr⟩⟩
  intro hmem
  have h3 : m.1 ≤ m.1 - 1 := hmin _ hmem
  omega

/-- A nonempty region has a bottom-left corner cell, exposed below and to
the left. -/
theorem corner_down_left (R : Finset Cell) (hne : R.Nonempty) :
    ∃ p : Cell, p ∈ downSet R ∧ p ∈ leftSet R := by
  classical
  obtain ⟨m, hm, hmax⟩ := Finset.exists_max_image R Prod.fst hne
  obtain ⟨c, hc, hcl⟩ := exists_row_left R m.1 (Finset.mem_image_of_mem _ hm)
  refine ⟨(m.1, c), Finset.mem_filter.mpr ⟨hc, ?_⟩, Finset.mem_filter.mpr ⟨hc, hcl⟩⟩
  intro hmem
  have h3 : m.1 + 1 ≤ m.1 := hmax _ hmem
  omega

/-- A nonempty region has a bottom-right corner cell, exposed below and to
the right. -/
theorem corner_down_right (R : Finset Cell) (hne : R.Nonempty) :
    ∃ p : Cell, p ∈ downSet R ∧ p ∈ rightSet R := by
  classical
  obtain ⟨m, hm, hmax⟩ := Finset.exists_max_image R Prod.fst hne
  obtain ⟨c, hc, hcr⟩ := exists_row_right R m.1 (Finset.mem_image_of_mem _ hm)
  refine ⟨(m.1, c), Finset.mem_filter.mpr ⟨hc, ?_⟩, Finset.mem_filter.mpr ⟨hc, hcr⟩⟩
  intro hmem
  have h3 : m.1 + 1 ≤ m.1 := hmax _ hmem
  omega

/-- A single cell has perimeter 4. -/
theorem perimeter_singleton (p : Cell) : perimeter_day12 {p} = 4 := by
  have h1 : ((p.1 - 1, p.2) : Cell) ∉ ({p} : Finset Cell) := by
    simp only [Finset.mem_singleton]
    intro h
    have := congrArg Prod.fst h
    simp only at this
    omega
  have h2 : ((p.1 + 1, p.2) : Cell) ∉ ({p} : Finset Cell) := by
    simp only [Finset.mem_singleton]
    intro h
    have := congrArg Prod.fst h
    simp only at this
    omega
  have h3 : ((p.1, p.2 - 1) : Cell) ∉ ({p} : Finset Cell) := by
    simp only [Finset.mem_singleton]
    intro h
    have := congrArg Prod.snd h
    simp only at this
    omega
  have h4 : ((p.1, p.2 + 1) : Cell) ∉ ({p} : Finset Cell) := by
    simp only [Finset.mem_singleton]
    intro h
    have := congrArg Prod.snd h
    simp only at this
    omega
  rw [perimeter_day12, Finset.sum_singleton, numNeighbors_eq,
    if_neg h1, if_neg h2, if_neg h3, if_neg h4]
  norm_num

/-- C3: for every nonempty region, the perimeter is at least 4, and it is
exactly 4 precisely for single-cell regions. -/
theorem c3_perimeter_ge_four (R : Finset Cell) (hne : R.Nonempty) :
    4 ≤ perimeter_day12 R ∧ (perimeter_day12 R = 4 ↔ R.card = 1) := by
  classical
  have hs := perimeter_eq_sets R
  obtain ⟨pul, hul1, hul2⟩ := corner_up_left R hne
  obtain ⟨pdr, hdr1, hdr2⟩ := corner_down_right R hne
  have hu : 0 < (upSet R).card := Finset.card_pos.mpr ⟨pul, hul1⟩
  have hd : 0 < (downSet R).card := Finset.card_pos.mpr ⟨pdr, hdr1⟩
  have hl : 0 < (leftSet R).card := Finset.card_pos.mpr ⟨pul, hul2⟩
  have hr : 0 < (rightSet R).card := Finset.card_pos.mpr ⟨pdr, hdr2⟩
  have hge : 4 ≤ perimeter_day12 R := by omega
  refine ⟨hge, ?_, ?_⟩
  · intro h4
    by_contra hcard
    have h2 : 1 < R.card := by
      have := Finset.card_pos.mpr hne
      omega
    obtain ⟨p, q, hp, hq, hpq⟩ := Finset.one_lt_card_iff.mp h2
    by_cases hrow : p.1 = q.1
    · have hcol : p.2 ≠ q.2 := by
        intro hc
        exact hpq (Prod.ext hrow hc)
      obtain ⟨r1, hr1, hr1n⟩ := exists_col_up R p.2 (Finset.mem_image_of_mem _ hp)
      obtain ⟨r2, hr2, hr2n⟩ := exists_col_up R q.2 (Finset.mem_image_of_mem _ hq)
      have hmem1 : ((r1, p.2) : Cell) ∈ upSet R := Finset.mem_filter.mpr ⟨hr1, hr1n⟩
      have hmem2 : ((r2, q.2) : Cell) ∈ upSet R := Finset.mem_filter.mpr ⟨hr2, hr2n⟩
      have hup2 : 1 < (upSet R).card := by
        refine Finset.one_lt_card_iff.mpr ⟨(r1, p.2), (r2, q.2), hmem1, hmem2, ?_⟩
        intro he
        simp only [Prod.mk.injEq] at he
        exact hcol he.2
      omega
    · obtain ⟨c1, hc1, hc1n⟩ := exists_row_right R p.1 (Finset.mem_image_of_mem _ hp)
      obtain ⟨c2, hc2, hc2n⟩ := exists_row_right R q.1 (Finset.mem_image_of_mem _ hq)
      have hmem1 : ((p.1, c1) : Cell) ∈ rightSet R := Finset.mem_filter.mpr ⟨hc1, hc1n⟩
      have hmem2 : ((q.1, c2) : Cell) ∈ rightSet R := Finset.mem_filter.mpr ⟨hc2, hc2n⟩
      have hrt2 : 1 < (rightSet R).card := by
        refine Finset.one_lt_card_iff.mpr ⟨(p.1, c1), (q.1, c2), hmem1, hmem2, ?_⟩
        intro he
        simp only [Prod.mk.injEq] at he
        exact hrow he.1
      omega
  · intro h1
    obtain ⟨p, hp⟩ := Finset.card_eq_one.mp h1
    rw [hp]
    exact perimeter_singleton p

/-- Witness for `c3_perimeter_ge_four` at the one-cell region `{(0, 0)}`. -/
theorem c3_perimeter_ge_four_witness :
    4 ≤ perimeter_day12 {((0 : ℤ), (0 : ℤ))} ∧
      (perimeter_day12 {((0 : ℤ), (0 : ℤ))} = 4 ↔
        ({((0 : ℤ), (0 : ℤ))} : Finset Cell).card = 1) :=
  c3_perimeter_ge_four {((0 : ℤ), (0 : ℤ))} ⟨((0 : ℤ), (0 : ℤ)), by decide⟩

/-! ### Side counting -/

/-- C8: every nonempty region has side count at least 4. -/
theorem c8_sides_ge_four (R : Finset Cell) (hne : R.Nonempty) :
    4 ≤ sides_day12 R := by
  classical
  obtain ⟨pul, hul_u, hul_l⟩ := corner_up_left R hne
  obtain ⟨pur, hur_u, hur_r⟩ := corner_up_right R hne
  obtain ⟨pdl, hdl_d, hdl_l⟩ := corner_down_left R hne
  obtain ⟨pdr, hdr_d, hdr_r⟩ := corner_down_right R hne
  have hup : 2 ≤ Finset.sum (upSet R) (upContrib R) := by
    have key : ∀ p ∈ upSet R,
        (if p ∈ leftSet R then (1 : ℤ) else 0) +
          (if p ∈ rightSet R then (1 : ℤ) else 0) ≤ upContrib R p := by
      intro p _
      rw [upContrib]
      split_ifs <;> omega
    have hsum := Finset.sum_le_sum key
    rw [Finset.sum_add_distrib] at hsum
    simp only [Finset.sum_boole] at hsum
    have c1 : 0 < ((upSet R).filter (fun p => p ∈ leftSet R)).card :=
      Finset.card_pos.mpr ⟨pul, Finset.mem_filter.mpr ⟨hul_u, hul_l⟩⟩
    have c2 : 0 < ((upSet R).filter (fun p => p ∈ rightSet R)).card :=
      Finset.card_pos.mpr ⟨pur, Finset.mem_filter.mpr ⟨hur_u, hur_r⟩⟩
    refine le_trans ?_ hsum
    omega
  have hdown : 2 ≤ Finset.sum (downSet R) (downContrib R) := by
    have key : ∀ p ∈ downSet R,
        (if p ∈ leftSet R then (1 : ℤ) else 0) +
          (if p ∈ rightSet R then (1 : ℤ) else 0) ≤ downContrib R p := by
      intro p _
      rw [downContrib]
      split_ifs <;> omega
    have hsum := Finset.sum_le_sum key
    rw [Finset.sum_add_distrib] at hsum
    simp only [Finset.sum_boole] at hsum
    have c1 : 0 < ((downSet R).filter (fun p => p ∈ leftSet R)).card :=
      Finset.card_pos.mpr ⟨pdl, Finset.mem_filter.mpr ⟨hdl_d, hdl_l⟩⟩
    have c2 : 0 < ((downSet R).filter (fun p => p ∈ rightSet R)).card :=
      Finset.card_pos.mpr ⟨pdr, Finset.mem_filter.mpr ⟨hdr_d, hdr_r⟩⟩
    refine le_trans ?_ hsum
    omega
  rw [sides_day12]
  omega

/-- Witness for `c8_sides_ge_four` at the one-cell region `{(0, 0)}`. -/
theorem c8_sides_ge_four_witness :
    4 ≤ sides_day12 {((0 : ℤ), (0 : ℤ))} :=
  c8_sides_ge_four {((0 : ℤ), (0 : ℤ))} ⟨((0 : ℤ), (0 : ℤ)), by decide⟩

/-! ### Full rectangles -/

/-- A full `w × h` rectangle of cells (h rows, w columns) with top-left
corner `(r0, c0)`. -/
def rectRegion (r0 c0 : ℤ) (w h : ℕ) : Finset Cell :=
  Finset.Ico r0 (r0 + (h : ℤ)) ×ˢ Finset.Ico c0 (c0 + (w : ℤ))

theorem mem_rectRegion (r0 c0 : ℤ) (w h : ℕ) (p : Cell) :
    p ∈ rectRegion r0 c0 w h ↔
      (r0 ≤ p.1 ∧ p.1 < r0 + (h : ℤ)) ∧ (c0 ≤ p.2 ∧ p.2 < c0 + (w : ℤ)) := by
  rw [rectRegion, Finset.mem_product, Finset.mem_Ico, Finset.mem_Ico]

theorem upSet_rect (r0 c0 : ℤ) (w h : ℕ) (hh : 1 ≤ h) :
    upSet (rectRegion r0 c0 w h) =
      ({r0} : Finset ℤ) ×ˢ Finset.Ico c0 (c0 + (w : ℤ)) := by
  ext ⟨a, b⟩
  simp only [upSet, Finset.mem_filter, mem_rectRegion, Finset.mem_product,
    Finset.mem_singleton, Finset.mem_Ico]
  omega

theorem downSet_rect (r0 c0 : ℤ) (w h : ℕ) (hh : 1 ≤ h) :
    downSet (rectRegion r0 c0 w h) =
      ({r0 + (h : ℤ) - 1} : Finset ℤ) ×ˢ Finset.Ico c0 (c0 + (w : ℤ)) := by
  ext ⟨a, b⟩
  simp only [downSet, Finset.mem_filter, mem_rectRegion, Finset.mem_product,
    Finset.mem_singleton, Finset.mem_Ico]
  omega

theorem leftSet_rect (r0 c0 : ℤ) (w h : ℕ) (hw : 1 ≤ w) :
    leftSet (rectRegion r0 c0 w h) =
      Finset.Ico r0 (r0 + (h : ℤ)) ×ˢ ({c0} : Finset ℤ) := by
  ext ⟨a, b⟩
  simp only [leftSet, Finset.mem_filter, mem_rectRegion, Finset.mem_product,
    Finset.mem_singleton, Finset.mem_Ico]
  omega

theorem rightSet_rect (r0 c0 : ℤ) (w h : ℕ) (hw : 1 ≤ w) :
    rightSet (rectRegion r0 c0 w h) =
      Finset.Ico r0 (r0 + (h : ℤ)) ×ˢ ({c0 + (w : ℤ) - 1} : Finset ℤ) := by
  ext ⟨a, b⟩
  simp only [rightSet, Finset.mem_filter, mem_rectRegion, Finset.mem_product,
    Finset.mem_singleton, Finset.mem_Ico]
  omega

theorem rect_perimeter (r0 c0 : ℤ) (w h : ℕ) (hw : 1 ≤ w) (hh : 1 ≤ h) :
    perimeter_day12 (rectRegion r0 c0 w h) = 2 * ((w : ℤ) + (h : ℤ)) := by
  rw [perimeter_eq_sets, upSet_rect r0 c0 w h hh, downSet_rect r0 c0 w h hh,
    leftSet_rect r0 c0 w h hw, rightSet_rect r0 c0 w h hw]
  rw [Finset.card_product, Finset.card_product, Finset.card_product,
    Finset.card_product, Finset.card_singleton, Finset.card_singleton,
    Finset.card_singleton, Finset.card_singleton, Int.card_Ico, Int.card_Ico]
  have e1 : (r0 + (h : ℤ) - r0).toNat = h := by omega
  have e2 : (c0 + (w : ℤ) - c0).toNat = w := by omega
  rw [e1, e2]
  push_cast
  ring

theorem rect_upContrib (r0 c0 : ℤ) (w h : ℕ) (hw : 1 ≤ w) (hh : 1 ≤ h) :
    ∀ b ∈ Finset.Ico c0 (c0 + (w : ℤ)),
      upContrib (rectRegion r0 c0 w h) ((r0, b) : Cell) =
        (if b = c0 then (1 : ℤ) else 0) +
          (if b = c0 + (w : ℤ) - 1 then (1 : ℤ) else 0) := by
  intro b hb
  rw [Finset.mem_Ico] at hb
  have hl : ((r0, b) : Cell) ∈ leftSet (rectRegion r0 c0 w h) ↔ b = c0 := by
    simp only [leftSet, Finset.mem_filter, mem_rectRegion]
    omega
  have hr : ((r0, b) : Cell) ∈ rightSet (rectRegion r0 c0 w h) ↔
      b = c0 + (w : ℤ) - 1 := by
    simp only [rightSet, Finset.mem_filter, mem_rectRegion]
    omega
  have h3 : ((r0 - 1, b - 1) : Cell) ∉ rightSet (rectRegion r0 c0 w h) := by
    simp only [rightSet, Finset.mem_filter, mem_rectRegion]
    omega
  have h4 : ((r0 - 1, b + 1) : Cell) ∉ leftSet (rectRegion r0 c0 w h) := by
    simp only [leftSet, Finset.mem_filter, mem_rectRegion]
    omega
  have hn3 : ¬(((r0 - 1, b - 1) : Cell) ∈ rightSet (rectRegion r0 c0 w h) ∧
      ((r0, b) : Cell) ∉ leftSet (rectRegion r0 c0 w h)) :=
    fun hand => h3 hand.1
  have hn4 : ¬(((r0 - 1, b + 1) : Cell) ∈ leftSet (rectRegion r0 c0 w h) ∧
      ((r0, b) : Cell) ∉ rightSet (rectRegion r0 c0 w h)) :=
    fun hand => h4 hand.1
  simp only [upContrib]
  rw [if_neg hn3, if_neg hn4, if_congr hl rfl rfl, if_congr hr rfl rfl]
  ring

theorem rect_downContrib (r0 c0 : ℤ) (w h : ℕ) (hw : 1 ≤ w) (hh : 1 ≤ h) :
    ∀ b ∈ Finset.Ico c0 (c0 + (w : ℤ)),
      downContrib (rectRegion r0 c0 w h) ((r0 + (h : ℤ) - 1, b) : Cell) =
        (if b = c0 then (1 : ℤ) else 0) +
          (if b = c0 + (w : ℤ) - 1 then (1 : ℤ) else 0) := by
  intro b hb
  rw [Finset.mem_Ico] at hb
  have hl : ((r0 + (h : ℤ) - 1, b) : Cell) ∈ leftSet (rectRegion r0 c0 w h) ↔
      b = c0 := by
    simp only [leftSet, Finset.mem_filter, mem_rectRegion]
    omega
  have hr : ((r0 + (h : ℤ) - 1, b) : Cell) ∈ rightSet (rectRegion r0 c0 w h) ↔
      b = c0 + (w : ℤ) - 1 := by
    simp only [rightSet, Finset.mem_filter, mem_rectRegion]
    omega
  have h3 : ((r0 + (h : ℤ) - 1 + 1, b - 1) : Cell) ∉
      rightSet (rectRegion r0 c0 w h) := by
    simp only [rightSet, Finset.mem_filter, mem_rectRegion]
    omega
  have h4 : ((r0 + (h : ℤ) - 1 + 1, b + 1) : Cell) ∉
      leftSet (rectRegion r0 c0 w h) := by
    simp only [leftSet, Finset.mem_filter, mem_rectRegion]
    omega
  have hn3 : ¬(((r0 + (h : ℤ) - 1 + 1, b - 1) : Cell) ∈
      rightSet (rectRegion r0 c0 w h) ∧
      ((r0 + (h : ℤ) - 1, b) : Cell) ∉ leftSet (rectRegion r0 c0 w h)) :=
    fun hand => h3 hand.1
  have hn4 : ¬(((r0 + (h : ℤ) - 1 + 1, b + 1) : Cell) ∈
      leftSet (rectRegion r0 c0 w h) ∧
      ((r0 + (h : ℤ) - 1, b) : Cell) ∉ rightSet (rectRegion r0 c0 w h)) :=
    fun hand => h4 hand.1
  simp only [downContrib]
  rw [if_neg hn3, if_neg hn4, if_congr hl rfl rfl, if_congr hr rfl rfl]
  ring

theorem rect_sides (r0 c0 : ℤ) (w h : ℕ) (hw : 1 ≤ w) (hh : 1 ≤ h) :
    sides_day12 (rectRegion r0 c0 w h) = 4 := by
  have hc0 : c0 ∈ Finset.Ico c0 (c0 + (w : ℤ)) := by
    rw [Finset.mem_Ico]
    omega
  have hcw : c0 + (w : ℤ) - 1 ∈ Finset.Ico c0 (c0 + (w : ℤ)) := by
    rw [Finset.mem_Ico]
    omega
  have hup : Finset.sum (upSet (rectRegion r0 c0 w h))
      (upContrib (rectRegion r0 c0 w h)) = 2 := by
    rw [upSet_rect r0 c0 w h hh, Finset.sum_product, Finset.sum_singleton,
      Finset.sum_congr rfl (rect_upContrib r0 c0 w h hw hh),
      Finset.sum_add_distrib, Finset.sum_ite_eq' (Finset.Ico c0 (c0 + (w : ℤ)))
        c0 (fun _ => (1 : ℤ)),
      Finset.sum_ite_eq' (Finset.Ico c0 (c0 + (w : ℤ)))
        (c0 + (w : ℤ) - 1) (fun _ => (1 : ℤ)), if_pos hc0, if_pos hcw]
    norm_num
  have hdown : Finset.sum (downSet (rectRegion r0 c0 w h))
      (downContrib (rectRegion r0 c0 w h)) = 2 := by
    rw [downSet_rect r0 c0 w h hh, Finset.sum_product, Finset.sum_singleton,
      Finset.sum_congr rfl (rect_downContrib r0 c0 w h hw hh),
      Finset.sum_add_distrib, Finset.sum_ite_eq' (Finset.Ico c0 (c0 + (w : ℤ)))
        c0 (fun _ => (1 : ℤ)),
      Finset.sum_ite_eq' (Finset.Ico c0 (c0 + (w : ℤ)))
        (c0 + (w : ℤ) - 1) (fun _ => (1 : ℤ)), if_pos hc0, if_pos hcw]
    norm_num
  rw [sides_day12, hup, hdown]
  norm_num

/-- C7: a full `w × h` rectangular region has perimeter `2(w + h)` and
side count 4. -/
theorem c7_rectangle (r0 c0 : ℤ) (w h : ℕ) (hw : 1 ≤ w) (hh : 1 ≤ h) :
    perimeter_day12 (rectRegion r0 c0 w h) = 2 * ((w : ℤ) + (h : ℤ)) ∧
      sides_day12 (rectRegion r0 c0 w h) = 4 :=
  ⟨rect_perimeter r0 c0 w h hw hh, rect_sides r0 c0 w h hw hh⟩

/-- Witness for `c7_rectangle`: the 2 × 3 rectangle at the origin. -/
theorem c7_rectangle_witness :
    perimeter_day12 (rectRegion 0 0 2 3) = 2 * ((2 : ℤ) + (3 : ℤ)) ∧
      sides_day12 (rectRegion 0 0 2 3) = 4 :=
  c7_rectangle 0 0 2 3 (by decide) (by decide)

/-! ### The concrete sample scenario -/

/-- C2: on the `AAAA/BBCD/BBCC/EEEC` grid the scan finds exactly five
regions, of sizes 4, 4, 4, 1, 3, made of the grid values `A`, `B`, `C`,
`D`, `E` respectively, and the part-1 total is 140. -/
theorem c2_sample_concrete :
    (findRegions sampleGrid).length = 5 ∧
    (findRegions sampleGrid).map Finset.card = [4, 4, 4, 1, 3] ∧
    (findRegions sampleGrid).map (fun r => r.image (valAt sampleGrid)) =
      [{'A'}, {'B'}, {'C'}, {'D'}, {'E'}] ∧
    part1 sampleGrid = 140 := by
  decide

/-! ### Input validation behaviour -/

/-- Whether a run result is the `MalformedInputError` required by the
specification. -/
def isMalformedErr : Except PyErr (List String) → Bool
  | Except.error PyErr.malformedInput => true
  | _ => false

/-- C4 counterexample: on the input `["A", "AB"]` the rows have different
lengths 1 and 2, yet the program does not raise anything at all: it runs to
completion and prints both answer lines (the second row's extra cell is
silently ignored). -/
theorem c4_counterexample :
    (["A", "AB"].map (fun s => (stripChars s.data).length)) = [1, 2] ∧
    runProgram ["A", "AB"] =
      Except.ok ["The Day12 Puzzle input # Part 1: 12",
        "The Day12 Puzzle input # Part 2: 8"] :=
  ⟨rfl, rfl⟩

/-- C4 amended: the script never raises `MalformedInputError` on any input;
empty input fails with `IndexError` at `grid[0]`, a row shorter than the
first fails with `IndexError` during the scan, and rows longer than the
first are silently truncated. -/
theorem c4_amended :
    runProgram [] = Except.error PyErr.indexError ∧
    runProgram ["AB", "A"] = Except.error PyErr.indexError ∧
    (∀ input : List String, isMalformedErr (runProgram input) = false) := by
  refine ⟨rfl, rfl, ?_⟩
  intro input
  simp only [runProgram]
  split
  · rfl
  · split
    · rfl
    · rfl

/-! ### Output format -/

/-- Whether `s` starts with the string `pre`. -/
def hasPartPre (pre : String) (s : String) : Bool :=
  s.data.take pre.data.length == pre.data

/-- Any line of the form `Part 1: <integer>` starts with `Part 1: `. -/
theorem partForm_hasPartPre (n : ℤ) :
    hasPartPre "Part 1: " ("Part 1: " ++ toString n) = true := by
  rw [hasPartPre, String.data_append, List.take_left]
  exact beq_self_eq_true _

/-- C6 counterexample: on the sample input the program prints two lines,
but they do not have the form `Part 1: <integer>` / `Part 2: <integer>`:
each carries the prefix `The Day12 Puzzle input # ` (see
`partForm_hasPartPre` for why the claimed form forces the line to start
with `Part 1: `). -/
theorem c6_counterexample :
    runProgram ["AAAA", "BBCD", "BBCC", "EEEC"] =
      Except.ok ["The Day12 Puzzle input # Part 1: 140",
        "The Day12 Puzzle input # Part 2: 80"] ∧
    hasPartPre "Part 1: " "The Day12 Puzzle input # Part 1: 140" = false ∧
    hasPartPre "Part 2: " "The Day12 Puzzle input # Part 2: 80" = false :=
  ⟨rfl, by decide, by decide⟩

/-- C6 amended: on a successful run the program prints exactly two lines,
of the form `The Day12 Puzzle input # Part 1: <integer>` followed by
`The Day12 Puzzle input # Part 2: <integer>`. -/
theorem c6_amended (input : List String) (lines : List String)
    (hok : runProgram input = Except.ok lines) :
    ∃ a b : ℤ, lines =
      ["The Day12 Puzzle input # Part 1: " ++ toString a,
       "The Day12 Puzzle input # Part 2: " ++ toString b] := by
  simp only [runProgram] at hok
  split at hok
  · exact Except.noConfusion hok
  · split at hok
    · exact Except.noConfusion hok
    · injection hok with h
      exact ⟨_, _, h.symm⟩

/-- Witness for `c6_amended` at the sample input. -/
theorem c6_amended_witness :
    ∃ a b : ℤ,
      (["The Day12 Puzzle input # Part 1: 140",
        "The Day12 Puzzle input # Part 2: 80"] : List String) =
        ["The Day12 Puzzle input # Part 1: " ++ toString a,
         "The Day12 Puzzle input # Part 2: " ++ toString b] :=
  c6_amended ["AAAA", "BBCD", "BBCC", "EEEC"]
    ["The Day12 Puzzle input # Part 1: 140",
     "The Day12 Puzzle input # Part 2: 80"] rfl

/-! ### Adjacency and reachability -/

/-- The BFS exploration relation: both cells in bounds, equal grid values,
and `q` one of the four neighbour translates of `p`. -/
def adj (g : List (List Char)) (p q : Cell) : Prop :=
  inBounds g p ∧ inBounds g q ∧ valAt g p = valAt g q ∧
    ∃ d ∈ dirs, q = (p.1 + d.1, p.2 + d.2)

/-- Same-region reachability: the reflexive-transitive closure of `adj`. -/
def Reach (g : List (List Char)) : Cell → Cell → Prop :=
  Relation.ReflTransGen (adj g)

theorem mem_cells (g : List (List Char)) (p : Cell) :
    p ∈ cells g ↔ inBounds g p := by
  rw [cells, inBounds]
  simp only [Finset.mem_image, Finset.mem_product, Finset.mem_range]
  constructor
  · rintro ⟨⟨a, b⟩, ⟨ha, hb⟩, he⟩
    rw [← he]
    refine ⟨?_, ?_, ?_, ?_⟩
    · show (0 : ℤ) ≤ (a : ℤ)
      omega
    · show (a : ℤ) < (numRows g : ℤ)
      omega
    · show (0 : ℤ) ≤ (b : ℤ)
      omega
    · show (b : ℤ) < (numCols g : ℤ)
      omega
  · rintro ⟨h1, h2, h3, h4⟩
    refine ⟨(p.1.toNat, p.2.toNat), ⟨?_, ?_⟩, ?_⟩
    · show p.1.toNat < numRows g
      omega
    · show p.2.toNat < numCols g
      omega
    · refine Prod.ext ?_ ?_
      · show ((p.1.toNat : ℤ)) = p.1
        omega
      · show ((p.2.toNat : ℤ)) = p.2
        omega

theorem adj_symm (g : List (List Char)) {p q : Cell} (h : adj g p q) :
    adj g q p := by
  obtain ⟨hp, hq, hv, d, hd, he⟩ := h
  refine ⟨hq, hp, hv.symm, ?_⟩
  fin_cases hd <;> subst he
  · exact ⟨(1, 0), by simp [dirs], Prod.ext (by show p.1 = p.1 + -1 + 1; ring)
      (by show p.2 = p.2 + 0 + 0; ring)⟩
  · exact ⟨(-1, 0), by simp [dirs], Prod.ext (by show p.1 = p.1 + 1 + -1; ring)
      (by show p.2 = p.2 + 0 + 0; ring)⟩
  · exact ⟨(0, 1), by simp [dirs], Prod.ext (by show p.1 = p.1 + 0 + 0; ring)
      (by show p.2 = p.2 + -1 + 1; ring)⟩
  · exact ⟨(0, -1), by simp [dirs], Prod.ext (by show p.1 = p.1 + 0 + 0; ring)
      (by show p.2 = p.2 + 1 + -1; ring)⟩

theorem reach_symm (g : List (List Char)) {p q : Cell} (h : Reach g p q) :
    Reach g q p :=
  Relation.ReflTransGen.symmetric (fun _ _ hab => adj_symm g hab) h

/-! ### Properties of the neighbour-enqueueing loop -/

theorem enq_seen_mono (g : List (List Char)) (p : Cell) :
    ∀ (ds : List (ℤ × ℤ)) (seen : Finset Cell) (acc : List Cell),
      ∀ w ∈ seen, w ∈ (enqueueNbrs g p ds seen acc).1 := by
  intro ds
  induction ds with
  | nil =>
    intro seen acc w hw
    simpa [enqueueNbrs] using hw
  | cons d ds ih =>
    intro seen acc w hw
    simp only [enqueueNbrs]
    by_cases hc : (p.1 + d.1, p.2 + d.2) ∉ seen ∧
        inBounds g (p.1 + d.1, p.2 + d.2) ∧
        valAt g (p.1 + d.1, p.2 + d.2) = valAt g p
    · rw [if_pos hc]
      exact ih _ _ w (Finset.mem_insert_of_mem hw)
    · rw [if_neg hc]
      exact ih _ _ w hw

theorem enq_acc_of_acc (g : List (List Char)) (p : Cell) :
    ∀ (ds : List (ℤ × ℤ)) (seen : Finset Cell) (acc : List Cell),
      ∀ a ∈ acc, a ∈ (enqueueNbrs g p ds seen acc).2 := by
  intro ds
  induction ds with
  | nil =>
    intro seen acc a ha
    simpa [enqueueNbrs] using ha
  | cons d ds ih =>
    intro seen acc a ha
    simp only [enqueueNbrs]
    by_cases hc : (p.1 + d.1, p.2 + d.2) ∉ seen ∧
        inBounds g (p.1 + d.1, p.2 + d.2) ∧
        valAt g (p.1 + d.1, p.2 + d.2) = valAt g p
    · rw [if_pos hc]
      exact ih _ _ a (by simp [ha])
    · rw [if_neg hc]
      exact ih _ _ a ha

theorem enq_seen_sub (g : List (List Char)) (p : Cell) :
    ∀ (ds : List (ℤ × ℤ)) (seen : Finset Cell) (acc : List Cell),
      ∀ w ∈ (enqueueNbrs g p ds seen acc).1,
        w ∈ seen ∨ w ∈ (enqueueNbrs g p ds seen acc).2 := by
  intro ds
  induction ds with
  | nil =>
    intro seen acc w hw
    simp only [enqueueNbrs] at hw
    exact Or.inl hw
  | cons d ds ih =>
    intro seen acc w hw
    simp only [enqueueNbrs] at hw ⊢
    by_cases hc : (p.1 + d.1, p.2 + d.2) ∉ seen ∧
        inBounds g (p.1 + d.1, p.2 + d.2) ∧
        valAt g (p.1 + d.1, p.2 + d.2) = valAt g p
    · rw [if_pos hc] at hw ⊢
      rcases ih _ _ w hw with hs | ha
      · rcases Finset.mem_insert.mp hs with he | hs
        · right
          have hmem : (p.1 + d.1, p.2 + d.2) ∈ acc ++ [(p.1 + d.1, p.2 + d.2)] := by
            simp
          rw [he]
          exact enq_acc_of_acc g p ds _ _ _ hmem
        · exact Or.inl hs
      · exact Or.inr ha
    · rw [if_neg hc] at hw ⊢
      exact ih _ _ w hw

theorem enq_acc_sub (g : List (List Char)) (p : Cell) :
    ∀ (ds : List (ℤ × ℤ)) (seen : Finset Cell) (acc : List Cell),
      ∀ w ∈ (enqueueNbrs g p ds seen acc).2,
        w ∈ acc ∨ (w ∉ seen ∧ inBounds g w ∧ valAt g w = valAt g p ∧
          ∃ d ∈ ds, w = (p.1 + d.1, p.2 + d.2)) := by
  intro ds
  induction ds with
  | nil =>
    intro seen acc w hw
    simp only [enqueueNbrs] at hw
    exact Or.inl hw
  | cons d ds ih =>
    intro seen acc w hw
    simp only [enqueueNbrs] at hw
    by_cases hc : (p.1 + d.1, p.2 + d.2) ∉ seen ∧
        inBounds g (p.1 + d.1, p.2 + d.2) ∧
        valAt g (p.1 + d.1, p.2 + d.2) = valAt g p
    · rw [if_pos hc] at hw
      rcases ih _ _ w hw with ha | hnew
      · rcases List.mem_append.mp ha with ha' | hd'
        · exact Or.inl ha'
        · right
          have he : w = (p.1 + d.1, p.2 + d.2) := by simpa using hd'
          rw [he]
          exact ⟨hc.1, hc.2.1, hc.2.2, d, by simp, rfl⟩
      · right
        obtain ⟨hs, hb, hv, d', hd', he⟩ := hnew
        have hs' : w ∉ seen := fun hmem => hs (Finset.mem_insert_of_mem hmem)
        exact ⟨hs', hb, hv, d', by simp [hd'], he⟩
    · rw [if_neg hc] at hw
      rcases ih _ _ w hw with ha | hnew
      · exact Or.inl ha
      · obtain ⟨hs, hb, hv, d', hd', he⟩ := hnew
        exact Or.inr ⟨hs, hb, hv, d', by simp [hd'], he⟩

theorem enq_closure (g : List (List Char)) (p : Cell) :
    ∀ (ds : List (ℤ × ℤ)) (seen : Finset Cell) (acc : List Cell),
      ∀ d ∈ ds, inBounds g (p.1 + d.1, p.2 + d.2) →
        valAt g (p.1 + d.1, p.2 + d.2) = valAt g p →
        (p.1 + d.1, p.2 + d.2) ∈ (enqueueNbrs g p ds seen acc).1 := by
  intro ds
  induction ds with
  | nil =>
    intro seen acc d hd
    exact absurd hd (List.not_mem_nil d)
  | cons d0 ds ih =>
    intro seen acc d hd hb hv
    simp only [enqueueNbrs]
    by_cases hc : (p.1 + d0.1, p.2 + d0.2) ∉ seen ∧
        inBounds g (p.1 + d0.1, p.2 + d0.2) ∧
        valAt g (p.1 + d0.1, p.2 + d0.2) = valAt g p
    · rw [if_pos hc]
      rcases List.mem_cons.mp hd with he | hds
      · subst he
        exact enq_seen_mono g p ds _ _ _ (Finset.mem_insert_self _ _)
      · exact ih _ _ d hds hb hv
    · rw [if_neg hc]
      rcases List.mem_cons.mp hd with he | hds
      · subst he
        have hseen : (p.1 + d.1, p.2 + d.2) ∈ seen := by
          by_contra hns
          exact hc ⟨hns, hb, hv⟩
        exact enq_seen_mono g p ds _ _ _ hseen
      · exact ih _ _ d hds hb hv

theorem enq_acc_mem (g : List (List Char)) (p : Cell) :
    ∀ (ds : List (ℤ × ℤ)) (seen : Finset Cell) (acc : List Cell),
      (∀ a ∈ acc, a ∈ seen) →
      ∀ a ∈ (enqueueNbrs g p ds seen acc).2, a ∈ (enqueueNbrs g p ds seen acc).1 := by
  intro ds
  induction ds with
  | nil =>
    intro seen acc hacc a ha
    simp only [enqueueNbrs] at ha ⊢
    exact hacc a ha
  | cons d ds ih =>
    intro seen acc hacc a ha
    simp only [enqueueNbrs] at ha ⊢
    by_cases hc : (p.1 + d.1, p.2 + d.2) ∉ seen ∧
        inBounds g (p.1 + d.1, p.2 + d.2) ∧
        valAt g (p.1 + d.1, p.2 + d.2) = valAt g p
    · rw [if_pos hc] at ha ⊢
      refine ih _ _ ?_ a ha
      intro b hb
      rcases List.mem_append.mp hb with hb' | hb'
      · exact Finset.mem_insert_of_mem (hacc b hb')
      · have : b = (p.1 + d.1, p.2 + d.2) := by simpa using hb'
        rw [this]
        exact Finset.mem_insert_self _ _
    · rw [if_neg hc] at ha ⊢
      exact ih _ _ hacc a ha

theorem enq_acc_nodup (g : List (List Char)) (p : Cell) :
    ∀ (ds : List (ℤ × ℤ)) (seen : Finset Cell) (acc : List Cell),
      (∀ a ∈ acc, a ∈ seen) → acc.Nodup →
      (enqueueNbrs g p ds seen acc).2.Nodup := by
  intro ds
  induction ds with
  | nil =>
    intro seen acc hacc hnd
    simpa [enqueueNbrs] using hnd
  | cons d ds ih =>
    intro seen acc hacc hnd
    simp only [enqueueNbrs]
    by_cases hc : (p.1 + d.1, p.2 + d.2) ∉ seen ∧
        inBounds g (p.1 + d.1, p.2 + d.2) ∧
        valAt g (p.1 + d.1, p.2 + d.2) = valAt g p
    · rw [if_pos hc]
      refine ih _ _ ?_ ?_
      · intro b hb
        rcases List.mem_append.mp hb with hb' | hb'
        · exact Finset.mem_insert_of_mem (hacc b hb')
        · have : b = (p.1 + d.1, p.2 + d.2) := by simpa using hb'
          rw [this]
          exact Finset.mem_insert_self _ _
      · refine List.Nodup.append hnd (by simp) ?_
        intro b hb
        simp only [List.mem_singleton]
        intro he
        rw [he] at hb
        exact hc.1 (hacc _ hb)
    · rw [if_neg hc]
      exact ih _ _ hacc hnd

theorem enq_measure (g : List (List Char)) (p : Cell) :
    ∀ (ds : List (ℤ × ℤ)) (seen : Finset Cell) (acc : List Cell),
      2 * ((cells g \ (enqueueNbrs g p ds seen acc).1).card) +
          (enqueueNbrs g p ds seen acc).2.length ≤
        2 * ((cells g \ seen).card) + acc.length := by
  intro ds
  induction ds with
  | nil =>
    intro seen acc
    simp [enqueueNbrs]
  | cons d ds ih =>
    intro seen acc
    simp only [enqueueNbrs]
    by_cases hc : (p.1 + d.1, p.2 + d.2) ∉ seen ∧
        inBounds g (p.1 + d.1, p.2 + d.2) ∧
        valAt g (p.1 + d.1, p.2 + d.2) = valAt g p
    · rw [if_pos hc]
      have hmem : (p.1 + d.1, p.2 + d.2) ∈ cells g \ seen :=
        Finset.mem_sdiff.mpr ⟨(mem_cells g _).mpr hc.2.1, hc.1⟩
      have hcard : (cells g \ insert (p.1 + d.1, p.2 + d.2) seen).card =
          (cells g \ seen).card - 1 := by
        rw [Finset.sdiff_insert, Finset.card_erase_of_mem hmem]
      have hpos : 0 < (cells g \ seen).card := Finset.card_pos.mpr ⟨_, hmem⟩
      have := ih (insert (p.1 + d.1, p.2 + d.2) seen) (acc ++ [(p.1 + d.1, p.2 + d.2)])
      rw [hcard, List.length_append] at this
      simp only [List.length_singleton] at this
      omega
    · rw [if_neg hc]
      exact ih seen acc

/-! ### The BFS loop -/

/-- The fuel `2 |unseen cells| + |queue|` always suffices: each iteration
pops one cell and marks every cell it enqueues. -/
theorem bfs_total (g : List (List Char)) :
    ∀ (fuel : ℕ) (seen : Finset Cell) (queue : List Cell) (region : Finset Cell),
      2 * ((cells g \ seen).card) + queue.length ≤ fuel →
      ∃ out, bfs g fuel seen queue region = some out := by
  intro fuel
  induction fuel with
  | zero =>
    intro seen queue region hm
    cases queue with
    | nil => exact ⟨(region, seen, []), rfl⟩
    | cons p rest =>
      rw [List.length_cons] at hm
      exact absurd hm (by omega)
  | succ n ih =>
    intro seen queue region hm
    cases queue with
    | nil => exact ⟨(region, seen, []), rfl⟩
    | cons p rest =>
      have hms := enq_measure g p dirs seen []
      simp only [List.length_nil] at hms
      have hrec : 2 * ((cells g \ (enqueueNbrs g p dirs seen []).1).card) +
          (rest ++ (enqueueNbrs g p dirs seen []).2).length ≤ n := by
        rw [List.length_append]
        rw [List.length_cons] at hm
        omega
      obtain ⟨out, hout⟩ := ih (enqueueNbrs g p dirs seen []).1
        (rest ++ (enqueueNbrs g p dirs seen []).2) (insert p region) hrec
      refine ⟨(out.1, out.2.1, (enqueueNbrs g p dirs seen []).2 ++ out.2.2), ?_⟩
      simp only [bfs]
      rw [hout]

/-- The main BFS invariant.  `U` is the union of the previously produced
regions (closed under `adj`), `root` the seed of the current traversal.
Given the loop invariants for the state `(seen, queue, region)`, a
successful run returns a region disjoint from `U`, made of in-bounds cells
of the seed's value, swallowing the queue, reachable from the seed,
adjacency-closed into the final seen set, and a duplicate-free trace of
cells that were unseen at enqueue time and marked afterwards. -/
theorem bfs_spec (g : List (List Char)) (U : Finset Cell) (root : Cell)
    (hU : ∀ u ∈ U, ∀ v, adj g u v → v ∈ U) :
    ∀ (fuel : ℕ) (seen : Finset Cell) (queue : List Cell) (region : Finset Cell)
      (region' seen' : Finset Cell) (tr : List Cell),
      bfs g fuel seen queue region = some (region', seen', tr) →
      (∀ w ∈ seen, w ∈ U ∨ w ∈ region ∨ w ∈ queue) →
      (∀ w : Cell, (w ∈ region ∨ w ∈ queue) → w ∉ U) →
      (∀ w : Cell, (w ∈ region ∨ w ∈ queue) →
        inBounds g w ∧ valAt g w = valAt g root) →
      (∀ u ∈ region, ∀ v, adj g u v → v ∈ seen) →
      (∀ w : Cell, (w ∈ region ∨ w ∈ queue) → Reach g root w) →
      (∀ w : Cell, (w ∈ region ∨ w ∈ queue) → w ∈ seen ∨ w = root) →
      ((∀ w : Cell, (w ∈ region ∨ w ∈ queue) → w ∈ region') ∧
       (∀ w ∈ region', w ∉ U) ∧
       (∀ w ∈ region', inBounds g w ∧ valAt g w = valAt g root) ∧
       (∀ w ∈ seen', w ∈ U ∨ w ∈ region') ∧
       (∀ u ∈ region', ∀ v, adj g u v → v ∈ seen') ∧
       (∀ w ∈ seen, w ∈ seen') ∧
       (∀ w ∈ region', Reach g root w) ∧
       (∀ w ∈ region', w ∈ seen' ∨ w = root) ∧
       tr.Nodup ∧ (∀ w ∈ tr, w ∉ seen ∧ w ∈ seen')) := by
  intro fuel
  induction fuel with
  | zero =>
    intro seen queue region region' seen' tr hrun h2 h3 h4 h5 h6 h7
    cases queue with
    | nil =>
      simp only [bfs, Option.some.injEq, Prod.mk.injEq] at hrun
      obtain ⟨hr1, hr2, hr3⟩ := hrun
      subst hr1; subst hr2; subst hr3
      refine ⟨?_, ?_, ?_, ?_, h5, fun w hw => hw, ?_, ?_, List.nodup_nil, ?_⟩
      · intro w hw
        rcases hw with hw | hw
        · exact hw
        · exact absurd hw (List.not_mem_nil w)
      · intro w hw
        exact h3 w (Or.inl hw)
      · intro w hw
        exact h4 w (Or.inl hw)
      · intro w hw
        rcases h2 w hw with h | h | h
        · exact Or.inl h
        · exact Or.inr h
        · exact absurd h (List.not_mem_nil w)
      · intro w hw
        exact h6 w (Or.inl hw)
      · intro w hw
        rcases h7 w (Or.inl hw) with h | h
        · exact Or.inl h
        · exact Or.inr h
      · intro w hw
        exact absurd hw (List.not_mem_nil w)
    | cons p rest =>
      simp only [bfs] at hrun
      exact Option.noConfusion hrun
  | succ n ih =>
    intro seen queue region region' seen' tr hrun h2 h3 h4 h5 h6 h7
    cases queue with
    | nil =>
      simp only [bfs, Option.some.injEq, Prod.mk.injEq] at hrun
      obtain ⟨hr1, hr2, hr3⟩ := hrun
      subst hr1; subst hr2; subst hr3
      refine ⟨?_, ?_, ?_, ?_, h5, fun w hw => hw, ?_, ?_, List.nodup_nil, ?_⟩
      · intro w hw
        rcases hw with hw | hw
        · exact hw
        · exact absurd hw (List.not_mem_nil w)
      · intro w hw
        exact h3 w (Or.inl hw)
      · intro w hw
        exact h4 w (Or.inl hw)
      · intro w hw
        rcases h2 w hw with h | h | h
        · exact Or.inl h
        · exact Or.inr h
        · exact absurd h (List.not_mem_nil w)
      · intro w hw
        exact h6 w (Or.inl hw)
      · intro w hw
        rcases h7 w (Or.inl hw) with h | h
        · exact Or.inl h
        · exact Or.inr h
      · intro w hw
        exact absurd hw (List.not_mem_nil w)
    | cons p rest =>
      have hA1 := enq_seen_mono g p dirs seen []
      have hA2 := enq_seen_sub g p dirs seen []
      have hA4 := enq_closure g p dirs seen []
      have hA5 := enq_acc_mem g p dirs seen []
        (fun a ha => absurd ha (List.not_mem_nil a))
      have hA6 := enq_acc_nodup g p dirs seen []
        (fun a ha => absurd ha (List.not_mem_nil a)) List.nodup_nil
      have hA3 : ∀ w ∈ (enqueueNbrs g p dirs seen []).2,
          w ∉ seen ∧ inBounds g w ∧ valAt g w = valAt g p ∧
            ∃ d ∈ dirs, w = (p.1 + d.1, p.2 + d.2) := by
        intro w hw
        rcases enq_acc_sub g p dirs seen [] w hw with h | h
        · exact absurd h (List.not_mem_nil w)
        · exact h
      have hp_q : p ∈ region ∨ p ∈ p :: rest := Or.inr (List.mem_cons_self p rest)
      have hpU : p ∉ U := h3 p hp_q
      have hpBV := h4 p hp_q
      have hadj_p : ∀ w ∈ (enqueueNbrs g p dirs seen []).2, adj g p w := by
        intro w hw
        obtain ⟨hs, hb, hv, d, hd, he⟩ := hA3 w hw
        exact ⟨hpBV.1, hb, hv.symm, d, hd, he⟩
      rcases hout : bfs g n (enqueueNbrs g p dirs seen []).1
          (rest ++ (enqueueNbrs g p dirs seen []).2) (insert p region) with _ | out
      · simp only [bfs] at hrun
        rw [hout] at hrun
        exact Option.noConfusion hrun
      · obtain ⟨r1, s1, t1⟩ := out
        simp only [bfs] at hrun
        rw [hout] at hrun
        simp only [Option.some.injEq, Prod.mk.injEq] at hrun
        obtain ⟨hr1, hr2, hr3⟩ := hrun
        subst hr1; subst hr2; subst hr3
        have key := ih (enqueueNbrs g p dirs seen []).1
          (rest ++ (enqueueNbrs g p dirs seen []).2) (insert p region) r1 s1 t1 hout
          ?_ ?_ ?_ ?_ ?_ ?_
        · obtain ⟨k1, k2, k3, k4, k5, k6, k7, k8, k9, k10⟩ := key
          refine ⟨?_, k2, k3, k4, k5, ?_, k7, k8, ?_, ?_⟩
          · intro w hw
            rcases hw with hw | hw
            · exact k1 w (Or.inl (Finset.mem_insert_of_mem hw))
            · rcases List.mem_cons.mp hw with he | hw'
              · rw [he]
                exact k1 p (Or.inl (Finset.mem_insert_self p region))
              · exact k1 w (Or.inr (List.mem_append_left _ hw'))
          · intro w hw
            exact k6 w (hA1 w hw)
          · refine List.Nodup.append hA6 k9 ?_
            intro a ha hat
            exact (k10 a hat).1 (hA5 a ha)
          · intro w hw
            rcases List.mem_append.mp hw with hw' | hw'
            · exact ⟨(hA3 w hw').1, k6 w (hA5 w hw')⟩
            · refine ⟨?_, (k10 w hw').2⟩
              intro hws
              exact (k10 w hw').1 (hA1 w hws)
        · -- h2 for the new state
          intro w hw
          rcases hA2 w hw with hws | hwn
          · rcases h2 w hws with h | h | h
            · exact Or.inl h
            · exact Or.inr (Or.inl (Finset.mem_insert_of_mem h))
            · rcases List.mem_cons.mp h with he | h'
              · rw [he]
                exact Or.inr (Or.inl (Finset.mem_insert_self p region))
              · exact Or.inr (Or.inr (List.mem_append_left _ h'))
          · exact Or.inr (Or.inr (List.mem_append_right _ hwn))
        · -- h3 for the new state
          intro w hw
          rcases hw with hw | hw
          · rcases Finset.mem_insert.mp hw with he | hw'
            · rw [he]; exact hpU
            · exact h3 w (Or.inl hw')
          · rcases List.mem_append.mp hw with hw' | hw'
            · exact h3 w (Or.inr (List.mem_cons_of_mem p hw'))
            · intro hwU
              exact hpU (hU w hwU p (adj_symm g (hadj_p w hw')))
        · -- h4 for the new state
          intro w hw
          rcases hw with hw | hw
          · rcases Finset.mem_insert.mp hw with he | hw'
            · rw [he]; exact hpBV
            · exact h4 w (Or.inl hw')
          · rcases List.mem_append.mp hw with hw' | hw'
            · exact h4 w (Or.inr (List.mem_cons_of_mem p hw'))
            · obtain ⟨hs, hb, hv, hd⟩ := hA3 w hw'
              exact ⟨hb, hv.trans hpBV.2⟩
        · -- h5 for the new state
          intro u hu v hv
          rcases Finset.mem_insert.mp hu with he | hu'
          · obtain ⟨hub, hvb, huv, d, hd, he'⟩ := hv
            rw [he] at he' huv
            have hval : valAt g (p.1 + d.1, p.2 + d.2) = valAt g p := by
              rw [← he']
              exact huv.symm
            have hmem := hA4 d hd (by rw [← he']; exact hvb) hval
            rw [he']
            exact hmem
          · exact hA1 v (h5 u hu' v hv)
        · -- h6 for the new state
          intro w hw
          rcases hw with hw | hw
          · rcases Finset.mem_insert.mp hw with he | hw'
            · rw [he]; exact h6 p hp_q
            · exact h6 w (Or.inl hw')
          · rcases List.mem_append.mp hw with hw' | hw'
            · exact h6 w (Or.inr (List.mem_cons_of_mem p hw'))
            · exact Relation.ReflTransGen.tail (h6 p hp_q) (hadj_p w hw')
        · -- h7 for the new state
          intro w hw
          rcases hw with hw | hw
          · rcases Finset.mem_insert.mp hw with he | hw'
            · rw [he]
              rcases h7 p hp_q with h | h
              · exact Or.inl (hA1 p h)
              · exact Or.inr h
            · rcases h7 w (Or.inl hw') with h | h
              · exact Or.inl (hA1 w h)
              · exact Or.inr h
          · rcases List.mem_append.mp hw with hw' | hw'
            · rcases h7 w (Or.inr (List.mem_cons_of_mem p hw')) with h | h
              · exact Or.inl (hA1 w h)
              · exact Or.inr h
            · exact Or.inl (hA5 w hw')

/-- Completeness of the traversal: anything reachable from a cell of the
final region is in the region (the only exits from the region lead into
`U`, which is closed and disjoint from the region). -/
theorem reach_complete (g : List (List Char)) (U region' seen' : Finset Cell)
    (s : Cell)
    (hU : ∀ u ∈ U, ∀ v, adj g u v → v ∈ U)
    (hdisj : ∀ w ∈ region', w ∉ U)
    (hseen : ∀ w ∈ seen', w ∈ U ∨ w ∈ region')
    (hcl : ∀ u ∈ region', ∀ v, adj g u v → v ∈ seen')
    (hs : s ∈ region') :
    ∀ x, Reach g s x → x ∈ region' := by
  intro x hx
  induction hx with
  | refl => exact hs
  | tail hab hbc ih =>
    rcases hseen _ (hcl _ ih _ hbc) with hU' | hr
    · exact absurd (hU _ hU' _ (adj_symm g hbc)) (hdisj _ ih)
    · exact hr

/-- The union of a list of regions. -/
def unionR (L : List (Finset Cell)) : Finset Cell := L.foldr (· ∪ ·) ∅

theorem mem_unionR (L : List (Finset Cell)) (w : Cell) :
    w ∈ unionR L ↔ ∃ R ∈ L, w ∈ R := by
  induction L with
  | nil => simp [unionR]
  | cons R L ih =>
    simp only [unionR, List.foldr_cons, Finset.mem_union]
    rw [show L.foldr (fun x1 x2 => x1 ∪ x2) ∅ = unionR L from rfl, ih]
    constructor
    · rintro (h | ⟨S, hS, hw⟩)
      · exact ⟨R, List.mem_cons_self R L, h⟩
      · exact ⟨S, List.mem_cons_of_mem R hS, hw⟩
    · rintro ⟨S, hS, hw⟩
      rcases List.mem_cons.mp hS with he | hS'
      · rw [← he]
        exact Or.inl hw
      · exact Or.inr ⟨S, hS', hw⟩

theorem mem_unionR_append (A B : List (Finset Cell)) (w : Cell) :
    w ∈ unionR (A ++ B) ↔ w ∈ unionR A ∨ w ∈ unionR B := by
  simp only [mem_unionR]
  constructor
  · rintro ⟨R, hR, hw⟩
    rcases List.mem_append.mp hR with h | h
    · exact Or.inl ⟨R, h, hw⟩
    · exact Or.inr ⟨R, h, hw⟩
  · rintro (⟨R, hR, hw⟩ | ⟨R, hR, hw⟩)
    · exact ⟨R, List.mem_append_left _ hR, hw⟩
    · exact ⟨R, List.mem_append_right _ hR, hw⟩

/-- In a duplicate-free list, a member has count exactly one (stated for an
arbitrary lawful `BEq` instance). -/
theorem count_eq_one_of_nodup {α : Type} [BEq α] [LawfulBEq α] {l : List α}
    (h : l.Nodup) {a : α} (ha : a ∈ l) : l.count a = 1 := by
  induction l with
  | nil => exact absurd ha (List.not_mem_nil a)
  | cons b l ih =>
    have hb : b ∉ l := (List.nodup_cons.mp h).1
    have hl : l.Nodup := (List.nodup_cons.mp h).2
    rw [List.count_cons]
    rcases List.mem_cons.mp ha with he | ha'
    · subst he
      rw [List.count_eq_zero.mpr hb]
      simp
    · rw [ih hl ha']
      have hne : b ≠ a := fun he => hb (he ▸ ha')
      simp [hne]

/-- The outer-scan invariant: processing the remaining seeds of `todo`
preserves the partition invariants, keeps every produced region a
reachability class, and bounds how often any cell enters a queue. -/
theorem scan_spec (g : List (List Char)) :
    ∀ (todo : List Cell) (regions : List (Finset Cell)) (seen : Finset Cell)
      (trace : List Cell) (regions' : List (Finset Cell)) (seen' : Finset Cell)
      (trace' : List Cell),
      todo.foldl (scanStep g) (regions, seen, trace) = (regions', seen', trace') →
      todo.Nodup →
      (∀ s ∈ todo, s ∈ cells g) →
      List.Pairwise (fun A B => ∀ x ∈ A, x ∉ B) regions →
      (∀ R ∈ regions, (∀ x ∈ R, x ∈ cells g) ∧ R.Nonempty) →
      (∀ u ∈ unionR regions, ∀ v, adj g u v → v ∈ unionR regions) →
      (∀ w ∈ seen, w ∈ unionR regions) →
      (∀ s ∈ todo, s ∈ unionR regions → s ∈ seen) →
      (∀ R ∈ regions, ∃ s ∈ R, ∀ x, x ∈ R ↔ Reach g s x) →
      (List.Pairwise (fun A B => ∀ x ∈ A, x ∉ B) regions' ∧
       (∀ R ∈ regions', (∀ x ∈ R, x ∈ cells g) ∧ R.Nonempty) ∧
       (∀ u ∈ unionR regions', ∀ v, adj g u v → v ∈ unionR regions') ∧
       (∀ w ∈ seen', w ∈ unionR regions') ∧
       (∀ R ∈ regions', ∃ s ∈ R, ∀ x, x ∈ R ↔ Reach g s x) ∧
       (∀ R ∈ regions, R ∈ regions') ∧
       (∀ s ∈ todo, ∃ R ∈ regions', s ∈ R) ∧
       (∀ w : Cell, trace'.count w ≤
         trace.count w + todo.count w + (if w ∈ seen then 0 else 1))) := by
  intro todo
  induction todo with
  | nil =>
    intro regions seen trace regions' seen' trace' hfold hnd hsub i1 i2 i3 i4 i5 i6
    simp only [List.foldl_nil, Prod.mk.injEq] at hfold
    obtain ⟨hf1, hf2, hf3⟩ := hfold
    subst hf1; subst hf2; subst hf3
    refine ⟨i1, i2, i3, i4, i6, fun R hR => hR, ?_, ?_⟩
    · intro s hs
      exact absurd hs (List.not_mem_nil s)
    · intro w
      by_cases hw : w ∈ seen <;> simp [hw]
  | cons s todo' ih =>
    intro regions seen trace regions' seen' trace' hfold hnd hsub i1 i2 i3 i4 i5 i6
    have hnd' : todo'.Nodup := (List.nodup_cons.mp hnd).2
    have hsnot : s ∉ todo' := (List.nodup_cons.mp hnd).1
    have hsub' : ∀ t ∈ todo', t ∈ cells g := fun t ht =>
      hsub t (List.mem_cons_of_mem s ht)
    have hscell : s ∈ cells g := hsub s (List.mem_cons_self s todo')
    rw [List.foldl_cons] at hfold
    by_cases hseen : s ∈ seen
    · have hstep : scanStep g (regions, seen, trace) s = (regions, seen, trace) := by
        simp only [scanStep]
        rw [if_pos hseen]
      rw [hstep] at hfold
      have key := ih regions seen trace regions' seen' trace' hfold hnd' hsub'
        i1 i2 i3 i4 (fun t ht => i5 t (List.mem_cons_of_mem s ht)) i6
      obtain ⟨k1, k2, k3, k4, k5, k6, k7, k8⟩ := key
      refine ⟨k1, k2, k3, k4, k5, k6, ?_, ?_⟩
      · intro t ht
        rcases List.mem_cons.mp ht with he | ht'
        · obtain ⟨R, hR, hsR⟩ := (mem_unionR regions s).mp (i4 s hseen)
          rw [he]
          exact ⟨R, k6 R hR, hsR⟩
        · exact k7 t ht'
      · intro w
        have := k8 w
        have hcnt : todo'.count w ≤ (s :: todo').count w := by
          rw [List.count_cons]
          omega
        omega
    · -- the seed is fresh: run the BFS
      have hfuel : 2 * ((cells g \ seen).card) + ([s] : List Cell).length ≤
          2 * (cells g).card + 1 := by
        have := Finset.card_le_card (Finset.sdiff_subset (s := cells g) (t := seen))
        simp only [List.length_cons, List.length_nil]
        omega
      obtain ⟨out, hbfs⟩ := bfs_total g (2 * (cells g).card + 1) seen [s] ∅ hfuel
      obtain ⟨reg1, s1, tr1⟩ := out
      have hstep : scanStep g (regions, seen, trace) s =
          (regions ++ [reg1], s1, trace ++ s :: tr1) := by
        simp only [scanStep]
        rw [if_neg hseen, hbfs]
      rw [hstep] at hfold
      -- invariants of the BFS run
      have hsU : s ∉ unionR regions := by
        intro hsu
        exact hseen (i5 s (List.mem_cons_self s todo') hsu)
      have key := bfs_spec g (unionR regions) s i3 (2 * (cells g).card + 1) seen [s] ∅
        reg1 s1 tr1 hbfs ?_ ?_ ?_ ?_ ?_ ?_
      · obtain ⟨k1, k2, k3, k4, k5, k6, k7, k8, k9, k10⟩ := key
        have hsreg : s ∈ reg1 := k1 s (Or.inr (List.mem_cons_self s []))
        -- new invariants for the appended state
        have i1' : List.Pairwise (fun A B => ∀ x ∈ A, x ∉ B) (regions ++ [reg1]) := by
          rw [List.pairwise_append]
          refine ⟨i1, List.pairwise_singleton _ _, ?_⟩
          intro A hA B hB x hxA
          have hBe : B = reg1 := by simpa using hB
          rw [hBe]
          intro hxB
          exact k2 x hxB ((mem_unionR regions x).mpr ⟨A, hA, hxA⟩)
        have i2' : ∀ R ∈ regions ++ [reg1], (∀ x ∈ R, x ∈ cells g) ∧ R.Nonempty := by
          intro R hR
          rcases List.mem_append.mp hR with h | h
          · exact i2 R h
          · have hRe : R = reg1 := by simpa using h
            rw [hRe]
            exact ⟨fun x hx => (mem_cells g x).mpr (k3 x hx).1, ⟨s, hsreg⟩⟩
        have i3' : ∀ u ∈ unionR (regions ++ [reg1]), ∀ v, adj g u v →
            v ∈ unionR (regions ++ [reg1]) := by
          intro u hu v hadj
          rw [mem_unionR_append]
          rcases (mem_unionR_append regions [reg1] u).mp hu with h | h
          · exact Or.inl (i3 u h v hadj)
          · have hureg : u ∈ reg1 := by
              rcases (mem_unionR [reg1] u).mp h with ⟨R, hR, hu'⟩
              have : R = reg1 := by simpa using hR
              rwa [this] at hu'
            rcases k4 v (k5 u hureg v hadj) with h' | h'
            · exact Or.inl h'
            · exact Or.inr ((mem_unionR [reg1] v).mpr ⟨reg1, List.mem_cons_self _ _, h'⟩)
        have i4' : ∀ w ∈ s1, w ∈ unionR (regions ++ [reg1]) := by
          intro w hw
          rw [mem_unionR_append]
          rcases k4 w hw with h | h
          · exact Or.inl h
          · exact Or.inr ((mem_unionR [reg1] w).mpr ⟨reg1, List.mem_cons_self _ _, h⟩)
        have i5' : ∀ t ∈ todo', t ∈ unionR (regions ++ [reg1]) → t ∈ s1 := by
          intro t ht htu
          rcases (mem_unionR_append regions [reg1] t).mp htu with h | h
          · exact k6 t (i5 t (List.mem_cons_of_mem s ht) h)
          · have htreg : t ∈ reg1 := by
              rcases (mem_unionR [reg1] t).mp h with ⟨R, hR, ht'⟩
              have : R = reg1 := by simpa using hR
              rwa [this] at ht'
            rcases k8 t htreg with h' | h'
            · exact h'
            · rw [h'] at ht
              exact absurd ht hsnot
        have i6' : ∀ R ∈ regions ++ [reg1], ∃ t ∈ R, ∀ x, x ∈ R ↔ Reach g t x := by
          intro R hR
          rcases List.mem_append.mp hR with h | h
          · exact i6 R h
          · have hRe : R = reg1 := by simpa using h
            rw [hRe]
            refine ⟨s, hsreg, fun x => ⟨k7 x, ?_⟩⟩
            exact fun hreach =>
              reach_complete g (unionR regions) reg1 s1 s i3 k2 k4 k5 hsreg x hreach
        have key2 := ih (regions ++ [reg1]) s1 (trace ++ s :: tr1)
          regions' seen' trace' hfold hnd' hsub' i1' i2' i3' i4' i5' i6'
        obtain ⟨j1, j2, j3, j4, j5, j6, j7, j8⟩ := key2
        refine ⟨j1, j2, j3, j4, j5, ?_, ?_, ?_⟩
        · intro R hR
          exact j6 R (List.mem_append_left _ hR)
        · intro t ht
          rcases List.mem_cons.mp ht with he | ht'
          · rw [he]
            exact ⟨reg1, j6 reg1 (List.mem_append_right _ (List.mem_cons_self _ _)), hsreg⟩
          · exact j7 t ht'
        · -- the enqueue-count bound
          intro w
          have hj := j8 w
          rw [List.count_append] at hj
          have htr1seen : w ∈ tr1 → w ∉ seen ∧ w ∈ s1 := fun hw => k10 w hw
          have hseenmono : w ∈ seen → w ∈ s1 := k6 w
          have hcons : (s :: tr1).count w = tr1.count w + (if w = s then 1 else 0) := by
            rw [List.count_cons]
            by_cases hws : s = w
            · rw [hws]
              simp
            · have : ¬(w = s) := fun he => hws he.symm
              simp [hws, this]
          have hconst : (s :: todo').count w =
              todo'.count w + (if w = s then 1 else 0) := by
            rw [List.count_cons]
            by_cases hws : s = w
            · rw [hws]
              simp
            · have : ¬(w = s) := fun he => hws he.symm
              simp [hws, this]
          rw [hcons] at hj
          rw [hconst]
          by_cases hw1 : w ∈ tr1
          · have h1 : tr1.count w = 1 := count_eq_one_of_nodup k9 hw1
            have h2 : w ∉ seen := (htr1seen hw1).1
            have h3 : w ∈ s1 := (htr1seen hw1).2
            rw [h1] at hj
            simp only [if_neg h2, if_pos h3] at hj ⊢
            by_cases hws : w = s
            · simp only [if_pos hws] at hj ⊢
              omega
            · simp only [if_neg hws] at hj ⊢
              omega
          · have h1 : tr1.count w = 0 := List.count_eq_zero.mpr hw1
            rw [h1] at hj
            by_cases hw2 : w ∈ seen
            · have h3 : w ∈ s1 := hseenmono hw2
              simp only [if_pos hw2, if_pos h3] at hj ⊢
              by_cases hws : w = s
              · rw [hws] at hw2
                exact absurd hw2 hseen
              · simp only [if_neg hws] at hj ⊢
                omega
            · simp only [if_neg hw2] at hj ⊢
              by_cases hw3 : w ∈ s1
              · simp only [if_pos hw3] at hj
                by_cases hws : w = s <;> simp only [if_pos, if_neg, hws] at hj ⊢ <;> omega
              · simp only [if_neg hw3] at hj
                by_cases hws : w = s <;> simp only [if_pos, if_neg, hws] at hj ⊢ <;> omega
      · -- h2 of bfs_spec
        intro w hw
        exact Or.inl (i4 w hw)
      · -- h3 of bfs_spec
        intro w hw
        rcases hw with hw | hw
        · exact absurd hw (Finset.not_mem_empty w)
        · have : w = s := by simpa using hw
          rw [this]
          exact hsU
      · -- h4 of bfs_spec
        intro w hw
        rcases hw with hw | hw
        · exact absurd hw (Finset.not_mem_empty w)
        · have : w = s := by simpa using hw
          rw [this]
          exact ⟨(mem_cells g s).mp hscell, rfl⟩
      · -- h5 of bfs_spec
        intro u hu
        exact absurd hu (Finset.not_mem_empty u)
      · -- h6 of bfs_spec
        intro w hw
        rcases hw with hw | hw
        · exact absurd hw (Finset.not_mem_empty w)
        · have : w = s := by simpa using hw
          rw [this]
          exact Relation.ReflTransGen.refl
      · -- h7 of bfs_spec
        intro w hw
        rcases hw with hw | hw
        · exact absurd hw (Finset.not_mem_empty w)
        · have : w = s := by simpa using hw
          rw [this]
          exact Or.inr rfl

/-! ### The row-major scan order -/

theorem mem_scanList (g : List (List Char)) (p : Cell) :
    p ∈ scanList g ↔ p ∈ cells g := by
  rw [scanList, mem_cells, inBounds]
  constructor
  · intro hp
    obtain ⟨r, hr, hp2⟩ := List.mem_flatMap.mp hp
    obtain ⟨c, hc, he⟩ := List.mem_map.mp hp2
    rw [List.mem_range] at hr hc
    rw [← he]
    refine ⟨?_, ?_, ?_, ?_⟩
    · show (0 : ℤ) ≤ (r : ℤ)
      omega
    · show (r : ℤ) < (numRows g : ℤ)
      omega
    · show (0 : ℤ) ≤ (c : ℤ)
      omega
    · show (c : ℤ) < (numCols g : ℤ)
      omega
  · rintro ⟨h1, h2, h3, h4⟩
    refine List.mem_flatMap.mpr ⟨p.1.toNat, ?_, List.mem_map.mpr ⟨p.2.toNat, ?_, ?_⟩⟩
    · rw [List.mem_range]
      omega
    · rw [List.mem_range]
      omega
    · refine Prod.ext ?_ ?_
      · show ((p.1.toNat : ℤ)) = p.1
        omega
      · show ((p.2.toNat : ℤ)) = p.2
        omega

theorem scanList_nodup (g : List (List Char)) : (scanList g).Nodup := by
  rw [scanList, List.nodup_flatMap]
  constructor
  · intro r _
    refine (List.nodup_range (numCols g)).map ?_
    intro a b he
    have h2 := congrArg Prod.snd he
    simp only at h2
    exact_mod_cast h2
  · have : (List.range (numRows g)).Pairwise (fun r r' => r ≠ r') :=
      (List.nodup_range _).imp (fun h => h)
    refine this.imp ?_
    intro r r' hne
    intro x hx hx'
    simp only [List.mem_map, List.mem_range] at hx hx'
    obtain ⟨c, _, he⟩ := hx
    obtain ⟨c', _, he'⟩ := hx'
    apply hne
    have h1 := congrArg Prod.fst he
    have h2 := congrArg Prod.fst he'
    simp only at h1 h2
    have : ((r : ℤ)) = (r' : ℤ) := by rw [h1, h2]
    exact_mod_cast this

/-! ### The partition property -/

/-- C1: for every rectangular grid, the regions produced by the row-major
scan are pairwise disjoint and their union is exactly the set of grid
cells. -/
theorem c1_partition (g : List (List Char))
    (hrect : ∀ row ∈ g, row.length = numCols g) :
    List.Pairwise (fun A B => ∀ x ∈ A, x ∉ B) (findRegions g) ∧
    ∀ p : Cell, (∃ R ∈ findRegions g, p ∈ R) ↔ p ∈ cells g := by
  have key := scan_spec g (scanList g) [] ∅ []
    (findRegions g) (findRegionsOrder g (scanList g)).2.1 (allEnqueues g) rfl
    (scanList_nodup g) (fun s hs => (mem_scanList g s).mp hs)
    List.Pairwise.nil
    (fun R hR => absurd hR (List.not_mem_nil R))
    (fun u hu => absurd ((mem_unionR [] u).mp hu)
      (fun ⟨R, hR, _⟩ => List.not_mem_nil R hR))
    (fun w hw => absurd hw (Finset.not_mem_empty w))
    (fun s _ hs => absurd ((mem_unionR [] s).mp hs)
      (fun ⟨R, hR, _⟩ => List.not_mem_nil R hR))
    (fun R hR => absurd hR (List.not_mem_nil R))
  obtain ⟨k1, k2, k3, k4, k5, k6, k7, k8⟩ := key
  refine ⟨k1, ?_⟩
  intro p
  constructor
  · rintro ⟨R, hR, hp⟩
    exact (k2 R hR).1 p hp
  · intro hp
    exact k7 p ((mem_scanList g p).mpr hp)

/-- Witness for `c1_partition` at the sample grid. -/
theorem c1_partition_witness :
    List.Pairwise (fun A B => ∀ x ∈ A, x ∉ B) (findRegions sampleGrid) ∧
    ∀ p : Cell, (∃ R ∈ findRegions sampleGrid, p ∈ R) ↔ p ∈ cells sampleGrid :=
  c1_partition sampleGrid (by decide)

/-! ### Enqueue multiplicity -/

/-- C5 counterexample: on the one-row grid `AA` the seed `(0, 0)` is
enqueued twice over the run: once as the seed of its BFS (unmarked), and
once more as a neighbour of `(0, 1)`. -/
theorem c5_counterexample :
    allEnqueues [['A', 'A']] = [(0, 0), (0, 1), (0, 0)] ∧
    (allEnqueues [['A', 'A']]).count ((0 : ℤ), (0 : ℤ)) = 2 := by
  exact ⟨by decide, by decide⟩

/-- C5 amended: because only neighbour enqueues are marked in `seen`, the
seed of a BFS may be enqueued a second time; every coordinate is added to a
BFS queue at most twice over the whole run. -/
theorem c5_amended (g : List (List Char)) (w : Cell) :
    (allEnqueues g).count w ≤ 2 := by
  have key := scan_spec g (scanList g) [] ∅ []
    (findRegions g) (findRegionsOrder g (scanList g)).2.1 (allEnqueues g) rfl
    (scanList_nodup g) (fun s hs => (mem_scanList g s).mp hs)
    List.Pairwise.nil
    (fun R hR => absurd hR (List.not_mem_nil R))
    (fun u hu => absurd ((mem_unionR [] u).mp hu)
      (fun ⟨R, hR, _⟩ => List.not_mem_nil R hR))
    (fun w hw => absurd hw (Finset.not_mem_empty w))
    (fun s _ hs => absurd ((mem_unionR [] s).mp hs)
      (fun ⟨R, hR, _⟩ => List.not_mem_nil R hR))
    (fun R hR => absurd hR (List.not_mem_nil R))
  obtain ⟨k1, k2, k3, k4, k5, k6, k7, k8⟩ := key
  have hcnt := k8 w
  have hscan : (scanList g).count w ≤ 1 := by
    by_cases hw : w ∈ scanList g
    · rw [count_eq_one_of_nodup (scanList_nodup g) hw]
    · rw [List.count_eq_zero.mpr hw]
      omega
  have hempty : w ∉ (∅ : Finset Cell) := Finset.not_mem_empty w
  rw [if_neg hempty] at hcnt
  simp only [List.count_nil] at hcnt
  omega

/-! ### Order independence -/

/-- Any complete duplicate-free seeding order produces regions that are
reachability classes and cover the grid. -/
theorem run_good (g : List (List Char)) (order : List Cell)
    (hnd : order.Nodup) (hmem : ∀ x : Cell, x ∈ order ↔ x ∈ cells g) :
    (∀ R ∈ (findRegionsOrder g order).1, (∀ x ∈ R, x ∈ cells g) ∧
      ∃ s ∈ R, ∀ x, x ∈ R ↔ Reach g s x) ∧
    (∀ x ∈ cells g, ∃ R ∈ (findRegionsOrder g order).1, x ∈ R) := by
  have key := scan_spec g order [] ∅ []
    (findRegionsOrder g order).1 (findRegionsOrder g order).2.1
    (findRegionsOrder g order).2.2 rfl
    hnd (fun s hs => (hmem s).mp hs)
    List.Pairwise.nil
    (fun R hR => absurd hR (List.not_mem_nil R))
    (fun u hu => absurd ((mem_unionR [] u).mp hu)
      (fun ⟨R, hR, _⟩ => List.not_mem_nil R hR))
    (fun w hw => absurd hw (Finset.not_mem_empty w))
    (fun s _ hs => absurd ((mem_unionR [] s).mp hs)
      (fun ⟨R, hR, _⟩ => List.not_mem_nil R hR))
    (fun R hR => absurd hR (List.not_mem_nil R))
  obtain ⟨k1, k2, k3, k4, k5, k6, k7, k8⟩ := key
  refine ⟨?_, ?_⟩
  · intro R hR
    exact ⟨(k2 R hR).1, k5 R hR⟩
  · intro x hx
    exact k7 x ((hmem x).mpr hx)

/-- Two runs whose regions are covering reachability classes produce the
same regions as a set: membership transfer in one direction. -/
theorem run_subset (g : List (List Char)) (L1 L2 : List (Finset Cell))
    (hchar1 : ∀ R ∈ L1, (∀ x ∈ R, x ∈ cells g) ∧
      ∃ s ∈ R, ∀ x, x ∈ R ↔ Reach g s x)
    (hchar2 : ∀ R ∈ L2, (∀ x ∈ R, x ∈ cells g) ∧
      ∃ s ∈ R, ∀ x, x ∈ R ↔ Reach g s x)
    (hcov2 : ∀ x ∈ cells g, ∃ R ∈ L2, x ∈ R) :
    ∀ R ∈ L1, R ∈ L2 := by
  intro R hR
  obtain ⟨hsub, s, hsR, hchar⟩ := hchar1 R hR
  obtain ⟨R2, hR2, hsR2⟩ := hcov2 s (hsub s hsR)
  obtain ⟨_, t, htR2, hchart⟩ := hchar2 R2 hR2
  have hts : Reach g t s := (hchart s).mp hsR2
  have hRe : R = R2 := by
    ext x
    rw [hchar x, hchart x]
    constructor
    · intro hsx
      exact hts.trans hsx
    · intro htx
      exact (reach_symm g hts).trans htx
  rw [hRe]
  exact hR2

/-- C9: seeding the scan with any duplicate-free enumeration of the grid
cells (any permutation of the row-major order) yields the same set of
regions, up to list order. -/
theorem c9_order_independent (g : List (List Char)) (order : List Cell)
    (hnd : order.Nodup) (hset : order.toFinset = (scanList g).toFinset) :
    ((findRegionsOrder g order).1).toFinset = (findRegions g).toFinset := by
  have hmem : ∀ x : Cell, x ∈ order ↔ x ∈ cells g := by
    intro x
    rw [← mem_scanList g x, ← List.mem_toFinset, ← List.mem_toFinset, hset]
  obtain ⟨hchar1, hcov1⟩ := run_good g order hnd hmem
  obtain ⟨hchar2, hcov2⟩ := run_good g (scanList g) (scanList_nodup g)
    (fun x => mem_scanList g x)
  apply Finset.Subset.antisymm
  · intro R hR
    rw [List.mem_toFinset] at hR ⊢
    exact run_subset g _ _ hchar1 hchar2 hcov2 R hR
  · intro R hR
    rw [List.mem_toFinset] at hR ⊢
    exact run_subset g _ _ hchar2 hchar1 hcov1 R hR

/-- Witness for `c9_order_independent`: reversing the row-major order on a
2 × 2 grid. -/
theorem c9_order_independent_witness :
    ((findRegionsOrder [['A', 'B'], ['A', 'A']]
        ((scanList [['A', 'B'], ['A', 'A']]).reverse)).1).toFinset =
      (findRegions [['A', 'B'], ['A', 'A']]).toFinset :=
  c9_order_independent [['A', 'B'], ['A', 'A']]
    ((scanList [['A', 'B'], ['A', 'A']]).reverse) (by decide) (by decide)
